import Mathlib

/-!
Verification of the quadtree-contours library (`src/index.js`).

The embedding models JavaScript numbers that can occur in the pipeline by
`JSNum`: `NaN`, `+Infinity`, `-Infinity`, or a finite value (idealised as a
rational, since the algorithm performs no lossy float arithmetic on raster
values: the mipmap reducers only select among existing values, and
stitching/sorting work on exact small integers).  Stateful JS arrays and
`Map`s are modelled by explicit state passing: fragments are stored in an
append-only store indexed by id (mirroring object identity, `a === b`), and
JS `Map`s by insertion-ordered association lists where `set` on an existing
key overwrites in place, exactly as `Map.prototype.set` does.

Recursions that are not structural in the source (the `while` loop of the
pyramid constructor, the mutually recursive quadtree walk, the `while` loop
of `intervals`) are given an explicit fuel argument so that every definition
is executable by kernel reduction; the fuel chosen at each call site is
proved (or used) sufficient where a claim depends on it.
-/

/-- A JavaScript number as it can appear in the mipmap planes: `NaN`,
`Infinity`, `-Infinity`, or a finite value (idealised as a rational). -/
inductive JSNum where
  | nan : JSNum
  | inf : JSNum
  | ninf : JSNum
  | num : ℚ → JSNum
deriving DecidableEq, Repr

namespace JSNum

/-- JavaScript `<` on numbers: any comparison with `NaN` is false. -/
def jlt : JSNum → JSNum → Bool
  | nan, _ => false
  | _, nan => false
  | inf, _ => false
  | _, inf => true
  | ninf, ninf => false
  | ninf, _ => true
  | _, ninf => false
  | num a, num b => decide (a < b)

/-- JavaScript `>` on numbers: any comparison with `NaN` is false. -/
def jgt : JSNum → JSNum → Bool
  | nan, _ => false
  | _, nan => false
  | _, inf => false
  | inf, _ => true
  | ninf, _ => false
  | _, ninf => true
  | num a, num b => decide (b < a)

/-- `Number.isFinite`. -/
def isFinite : JSNum → Bool
  | num _ => true
  | _ => false

/-- The rational value of a finite `JSNum` (junk elsewhere; only used after
an `isFinite` test, as in the source). -/
def getQ : JSNum → ℚ
  | num q => q
  | _ => 0

end JSNum

open JSNum

/-- `minFinite` from `src/index.js` (lines 46-53): fold of `if (v < r) r = v`
over the arguments, starting from `Infinity`.  `NaN` (and `Infinity`)
arguments are skipped because the `<` comparison is false for them. -/
def minFinite (args : List JSNum) : JSNum :=
  args.foldl (fun r v => if jlt v r then v else r) JSNum.inf

/-- `maxFinite` from `src/index.js` (lines 55-62): fold of `if (v > r) r = v`
over the arguments, starting from `-Infinity`. -/
def maxFinite (args : List JSNum) : JSNum :=
  args.foldl (fun r v => if jgt v r then v else r) JSNum.ninf

/-- One mipmap level `{ min, max, width, height, scale }` (row-major planes). -/
structure MipLevel where
  min : List JSNum
  max : List JSNum
  width : Nat
  height : Nat
  scale : Nat
deriving DecidableEq, Repr

/-- The list of input samples a `reduceWith` output cell `(x, y)` reads
(`src/index.js` lines 19-42): the full 2x2 block when both the extra column
and row are in range, a partial 2x1/1x2 block at an odd right/bottom edge,
and the single corner sample when both are odd, in the argument order of the
source. -/
def blockSamples (data : List JSNum) (width height x y : Nat) : List JSNum :=
  let d := fun (yy xx : Nat) => data.getD (yy * width + xx) JSNum.nan
  if 2 * x + 1 < width ∧ 2 * y + 1 < height then
    [d (2 * y) (2 * x), d (2 * y) (2 * x + 1), d (2 * y + 1) (2 * x), d (2 * y + 1) (2 * x + 1)]
  else if 2 * y + 1 < height then
    [d (2 * y) (2 * x), d (2 * y + 1) (2 * x)]
  else if 2 * x + 1 < width then
    [d (2 * y) (2 * x), d (2 * y) (2 * x + 1)]
  else
    [d (2 * y) (2 * x)]

/-- `mipmapReduce` (`src/index.js` lines 10-71): build layer N from layer
N+1 by halving both dimensions (ceiling division), reducing each block with
`minFinite`/`maxFinite`, and doubling `scale`. -/
def mipmapReduce (ml : MipLevel) : MipLevel :=
  let outWidth := (ml.width + 1) / 2
  let outHeight := (ml.height + 1) / 2
  { min := (List.range (outWidth * outHeight)).map
      (fun i => minFinite (blockSamples ml.min ml.width ml.height (i % outWidth) (i / outWidth)))
    max := (List.range (outWidth * outHeight)).map
      (fun i => maxFinite (blockSamples ml.max ml.width ml.height (i % outWidth) (i / outWidth)))
    width := outWidth
    height := outHeight
    scale := ml.scale * 2 }

/-- The constructor loop (`src/index.js` lines 76-80): repeatedly `unshift`
the reduction of the coarsest level while it is larger than 1x1.  The fuel
argument makes the recursion structural; `width + height` fuel is always
sufficient (each step strictly shrinks that sum while the guard holds). -/
def buildLevelsAux : Nat → MipLevel → List MipLevel
  | 0, ml => [ml]
  | fuel + 1, ml =>
    if 1 < ml.width ∨ 1 < ml.height then
      buildLevelsAux fuel (mipmapReduce ml) ++ [ml]
    else
      [ml]

/-- The `ContourMipmap` class: just its `levels` array, coarsest first. -/
structure ContourMipmap where
  levels : List MipLevel
deriving DecidableEq, Repr

/-- A default level used for out-of-range `getD` reads (the source never
performs such a read on the paths we verify). -/
def mlDefault : MipLevel := { min := [], max := [], width := 0, height := 0, scale := 0 }

/-- `new ContourMipmap(raster, width, height)` (`src/index.js` lines 74-81):
the bottom layer is the raster itself with `min = max = raster`, `scale = 1`. -/
def ContourMipmap.mk' (raster : List JSNum) (width height : Nat) : ContourMipmap :=
  ⟨buildLevelsAux (width + height) { min := raster, max := raster, width := width, height := height, scale := 1 }⟩

/-- `min()` (`src/index.js` line 84): `this.levels[0].min[0]`. -/
def ContourMipmap.minJS (m : ContourMipmap) : JSNum :=
  ((m.levels.headD mlDefault).min).getD 0 JSNum.nan

/-- `max()` (`src/index.js` line 87): `this.levels[0].max[0]`. -/
def ContourMipmap.maxJS (m : ContourMipmap) : JSNum :=
  ((m.levels.headD mlDefault).max).getD 0 JSNum.nan

/-- The `while (level < max) { levels.push(level); level += interval }` loop
of `intervals` (`src/index.js` lines 97-101), with structural fuel. -/
def intervalsGo (step mx : ℚ) : Nat → ℚ → List ℚ
  | 0, _ => []
  | fuel + 1, level =>
    if level < mx then level :: intervalsGo step mx fuel (level + step)
    else []

/-- `intervals(interval)` (`src/index.js` lines 90-104).  A non-positive
interval throws (`none`).  When the root min or max is not finite, every JS
comparison in the loop is false and the result is the empty list, which is
what the `match` fallback returns. -/
def ContourMipmap.intervals (m : ContourMipmap) (interval : ℚ) : Option (List ℚ) :=
  if interval ≤ 0 then none
  else some (match m.minJS, m.maxJS with
    | JSNum.num mn, JSNum.num mx =>
      intervalsGo interval mx (((mx - ⌈mn / interval⌉ * interval) / interval).ceil.toNat + 1)
        (⌈mn / interval⌉ * interval)
    | _, _ => [])

/-- Cell classification constants (`src/index.js` lines 4-7). -/
inductive Cls where
  | outside : Cls
  | above : Cls
  | below : Cls
  | within : Cls
deriving DecidableEq, Repr

/-- `maxMipmapLevel = maxMipmapLevel || this.levels.length`
(`src/index.js` line 111): an absent or zero (falsy) option defaults to the
number of pyramid levels. -/
def resolveMaxL (opt : Option Nat) (len : Nat) : Nat :=
  match opt with
  | none => len
  | some 0 => len
  | some n => n

/-- `evaluate(l, x, y)` (`src/index.js` lines 115-127).  `none` models the
TypeError that `this.levels[l]` being `undefined` would raise; otherwise the
cell is OUTSIDE when out of bounds or with non-finite min/max (an
out-of-range typed-array read yields `undefined`, which is not finite, hence
the `getD _ nan` default), ABOVE when `min >= level`, BELOW when
`max < level`, ABOVE again at the depth cap, and WITHIN otherwise. -/
def evaluate (levels : List MipLevel) (maxL : Nat) (t : ℚ) (l x y : Nat) : Option Cls :=
  match levels[l]? with
  | none => none
  | some ml =>
    let i := ml.width * y + x
    let mn := ml.min.getD i JSNum.nan
    let mx := ml.max.getD i JSNum.nan
    some (if ml.width ≤ x ∨ ml.height ≤ y ∨ ¬ mn.isFinite = true ∨ ¬ mx.isFinite = true then .outside
      else if t ≤ mn.getQ then .above
      else if mx.getQ < t then .below
      else if maxL ≤ l then .above
      else .within)

/-- Orientation of an edge visit: `edgeH` tests a cell and its horizontal
neighbour to the right, `edgeV` a cell and its vertical neighbour below. -/
inductive EdgeOrient where
  | horiz : EdgeOrient
  | vert : EdgeOrient
deriving DecidableEq, Repr

/-- An edge visit: orientation plus the coordinates of the first of the two
cells it separates. -/
abbrev EdgeCall : Type := EdgeOrient × Nat × Nat

/-- The four internal edge visits performed by a subdivided `node(l, x, y)`
(`src/index.js` lines 175-178), in source order: `edgeH(l+1, 2x, 2y)`,
`edgeV(l+1, 2x, 2y)`, `edgeH(l+1, 2x, 2y+1)`, `edgeV(l+1, 2x+1, 2y)`. -/
def nodeEdgeCalls (x y : Nat) : List EdgeCall :=
  [(EdgeOrient.horiz, 2 * x, 2 * y), (EdgeOrient.vert, 2 * x, 2 * y),
   (EdgeOrient.horiz, 2 * x, 2 * y + 1), (EdgeOrient.vert, 2 * x + 1, 2 * y)]

/-- The pair of cells an edge visit separates: `edgeH(l, x, y)` tests
`(x, y)` and `(x+1, y)`; `edgeV(l, x, y)` tests `(x, y)` and `(x, y+1)`
(`src/index.js` lines 133-163). -/
def edgeCells : EdgeCall → (Nat × Nat) × (Nat × Nat)
  | (EdgeOrient.horiz, x, y) => ((x, y), (x + 1, y))
  | (EdgeOrient.vert, x, y) => ((x, y), (x, y + 1))

/-- The four child cells of a subdivided cell `(x, y)`, at the next level
(`src/index.js` lines 171-174). -/
def childCells (x y : Nat) : List (Nat × Nat) :=
  [(2 * x, 2 * y), (2 * x + 1, 2 * y), (2 * x, 2 * y + 1), (2 * x + 1, 2 * y + 1)]

/-- A raw segment as passed to the `addLine` callback:
`(l, x1, y1, x2, y2)` in grid units of level `l`. -/
structure RawSeg where
  lvl : Nat
  x1 : Nat
  y1 : Nat
  x2 : Nat
  y2 : Nat
deriving DecidableEq, Repr

/-- Which of the three mutually recursive traversal functions is running. -/
inductive TKind where
  | node : TKind
  | edgeH : TKind
  | edgeV : TKind
deriving DecidableEq, Repr

/-- The orientation of the edge function an `EdgeCall` invokes. -/
def orientKind : EdgeOrient → TKind
  | EdgeOrient.horiz => TKind.edgeH
  | EdgeOrient.vert => TKind.edgeV

/-- The mutually recursive traversal `node`/`edgeH`/`edgeV`
(`src/index.js` lines 133-184), as one function over a tag, collecting the
emitted segments in callback order.  `none` models a crash
(`this.levels[l]` out of bounds); the structural fuel only has to exceed the
number of levels that can be descended, every recursive call being guarded
by a WITHIN classification, which requires `l < maxL`. -/
def walk (levels : List MipLevel) (maxL : Nat) (t : ℚ) :
    Nat → TKind → Nat → Nat → Nat → Option (List RawSeg)
  | 0, _, _, _, _ => none
  | fuel + 1, TKind.edgeH, l, x, y =>
    match evaluate levels maxL t l x y, evaluate levels maxL t l (x + 1) y with
    | some e1, some e2 =>
      if e1 = Cls.above ∧ e2 = Cls.below then some [⟨l, x + 1, y + 1, x + 1, y⟩]
      else if e2 = Cls.above ∧ e1 = Cls.below then some [⟨l, x + 1, y, x + 1, y + 1⟩]
      else if e1 = Cls.within ∨ e2 = Cls.within then
        match walk levels maxL t fuel TKind.edgeH (l + 1) (2 * x + 1) (2 * y),
              walk levels maxL t fuel TKind.edgeH (l + 1) (2 * x + 1) (2 * y + 1) with
        | some s1, some s2 => some (s1 ++ s2)
        | _, _ => none
      else some []
    | _, _ => none
  | fuel + 1, TKind.edgeV, l, x, y =>
    match evaluate levels maxL t l x y, evaluate levels maxL t l x (y + 1) with
    | some e1, some e2 =>
      if e1 = Cls.above ∧ e2 = Cls.below then some [⟨l, x, y + 1, x + 1, y + 1⟩]
      else if e2 = Cls.above ∧ e1 = Cls.below then some [⟨l, x + 1, y + 1, x, y + 1⟩]
      else if e1 = Cls.within ∨ e2 = Cls.within then
        match walk levels maxL t fuel TKind.edgeV (l + 1) (2 * x) (2 * y + 1),
              walk levels maxL t fuel TKind.edgeV (l + 1) (2 * x + 1) (2 * y + 1) with
        | some s1, some s2 => some (s1 ++ s2)
        | _, _ => none
      else some []
    | _, _ => none
  | fuel + 1, TKind.node, l, x, y =>
    match evaluate levels maxL t l x y with
    | none => none
    | some e =>
      if e = Cls.within then
        match nodeEdgeCalls x y with
        | [c1, c2, c3, c4] =>
          match walk levels maxL t fuel TKind.node (l + 1) (2 * x) (2 * y),
                walk levels maxL t fuel TKind.node (l + 1) (2 * x + 1) (2 * y),
                walk levels maxL t fuel TKind.node (l + 1) (2 * x) (2 * y + 1),
                walk levels maxL t fuel TKind.node (l + 1) (2 * x + 1) (2 * y + 1),
                walk levels maxL t fuel (orientKind c1.1) (l + 1) c1.2.1 c1.2.2,
                walk levels maxL t fuel (orientKind c2.1) (l + 1) c2.2.1 c2.2.2,
                walk levels maxL t fuel (orientKind c3.1) (l + 1) c3.2.1 c3.2.2,
                walk levels maxL t fuel (orientKind c4.1) (l + 1) c4.2.1 c4.2.2 with
          | some n1, some n2, some n3, some n4, some s1, some s2, some s3, some s4 =>
            some (n1 ++ n2 ++ n3 ++ n4 ++ s1 ++ s2 ++ s3 ++ s4)
          | _, _, _, _, _, _, _, _ => none
        | _ => none
      else some []

/-- `evaluateContour` (`src/index.js` lines 110-185), restricted to segment
collection (`contour` passes no `addNode`): resolve the depth cap and start
the traversal at `node(0, 0, 0)`. -/
def ContourMipmap.evaluateContour (m : ContourMipmap) (t : ℚ) (maxMipmapLevel : Option Nat) :
    Option (List RawSeg) :=
  let maxL := resolveMaxL maxMipmapLevel m.levels.length
  walk m.levels maxL t (maxL + 1) TKind.node 0 0 0

/-- A 2D point in finest-grid units (exact rationals). -/
abbrev Pt : Type := ℚ × ℚ

/-- The origin, used as the junk default for total list reads. -/
def pt0 : Pt := (0, 0)

/-- `key(a) = a[0] + a[1] * 65536` (`src/index.js` line 217): the packed
`Map` key of a point. -/
def key (p : Pt) : ℚ := p.1 + p.2 * 65536

/-- An insertion-ordered map from packed keys to fragment ids, modelling a
JS `Map` whose values are (references to) fragment arrays. -/
abbrev OMap : Type := List (ℚ × Nat)

/-- `Map.prototype.get` (`undefined` becomes `none`). -/
def omapGet (m : OMap) (k : ℚ) : Option Nat :=
  (m.find? (fun e => e.1 = k)).map (fun e => e.2)

/-- `Map.prototype.set`: overwrite in place when the key is present
(keeping its insertion position), otherwise append. -/
def omapSet (m : OMap) (k : ℚ) (v : Nat) : OMap :=
  if m.any (fun e => e.1 = k) then m.map (fun e => if e.1 = k then (k, v) else e)
  else m ++ [(k, v)]

/-- `Map.prototype.delete`. -/
def omapDel (m : OMap) (k : ℚ) : OMap :=
  m.filter (fun e => ¬ e.1 = k)

/-- The insertion-ordered key list of a map. -/
def omapKeys (m : OMap) : List ℚ := m.map (fun e => e.1)

/-- The stitching state of `contour()` (`src/index.js` lines 219-263).
Fragments are mutable JS arrays; `frags` is an id-indexed store modelling
object identity (`a === b` is id equality), and the two maps hold ids. -/
structure StitchState where
  frags : List (List Pt)
  fstart : OMap
  fend : OMap
  rings : List (List Pt)
deriving DecidableEq

/-- The empty stitching state. -/
def stitchInit : StitchState := ⟨[], [], [], []⟩

/-- One iteration of the `segments.forEach` stitching loop
(`src/index.js` lines 223-263): look the segment's endpoints up in the two
maps, then close a ring, join two fragments, extend one fragment at either
side, or register a new two-point fragment. -/
def stitchStep (st : StitchState) (seg : Pt × Pt) : StitchState :=
  let s := seg.1
  let e := seg.2
  match omapGet st.fend (key s), omapGet st.fstart (key e) with
  | some a, some b =>
    let fend' := omapDel st.fend (key s)
    let fstart' := omapDel st.fstart (key e)
    if a = b then
      { st with
        fend := fend',
        fstart := fstart',
        rings := st.rings ++ [st.frags.getD a [] ++ [e]] }
    else
      let c := st.frags.getD a [] ++ st.frags.getD b []
      { frags := st.frags ++ [c],
        fstart := omapSet fstart' (key (c.headD pt0)) st.frags.length,
        fend := omapSet fend' (key (c.getLastD pt0)) st.frags.length,
        rings := st.rings }
  | some a, none =>
    { st with
      frags := st.frags.set a (st.frags.getD a [] ++ [e]),
      fend := omapSet (omapDel st.fend (key s)) (key e) a }
  | none, some b =>
    { st with
      frags := st.frags.set b (s :: st.frags.getD b []),
      fstart := omapSet (omapDel st.fstart (key e)) (key s) b }
  | none, none =>
    { st with
      frags := st.frags ++ [[s, e]],
      fstart := omapSet st.fstart (key s) st.frags.length,
      fend := omapSet st.fend (key e) st.frags.length }

/-- Stable insertion of a segment into a list sorted by start key: it goes
in front of the first element with a key not smaller than its own. -/
def insertSeg (s : Pt × Pt) : List (Pt × Pt) → List (Pt × Pt)
  | [] => [s]
  | t :: ts => if key t.1 < key s.1 then t :: insertSeg s ts else s :: t :: ts

/-- `segments.sort((a, b) => key(a.start) - key(b.start))`
(`src/index.js` line 212): a stable sort by ascending start key (JS array
sort is stable). -/
def sortSegs : List (Pt × Pt) → List (Pt × Pt)
  | [] => []
  | s :: rest => insertSeg s (sortSegs rest)

/-- Scaling of a raw segment into finest-grid units by its level's `scale`
(`src/index.js` lines 204-207). -/
def scaleSeg (levels : List MipLevel) (r : RawSeg) : Pt × Pt :=
  let sc : ℚ := ((levels.getD r.lvl mlDefault).scale : ℚ)
  ((sc * r.x1, sc * r.y1), (sc * r.x2, sc * r.y2))

/-- `pointAt` of `smooth` (`src/index.js` lines 286-291): circular wrap for
a loop, clamp-to-endpoint otherwise. -/
def pointAt (line : List Pt) (isLoop : Bool) (i : ℤ) : Pt :=
  if isLoop then line.getD ((i + line.length) % (line.length : ℤ)).toNat pt0
  else line.getD (min (max i 0) ((line.length : ℤ) - 1)).toNat pt0

/-- The running-window loop of one smoothing cycle
(`src/index.js` lines 316-320): emit `(px*sc, py*sc)` then slide the window
by one point. -/
def smoothLoop (line : List Pt) (isLoop : Bool) (k : Nat) (sc : ℚ) :
    Nat → ℤ → ℚ → ℚ → List Pt
  | 0, _, _, _ => []
  | n + 1, i, px, py =>
    (px * sc, py * sc) ::
      smoothLoop line isLoop k sc n (i + 1)
        (px + (pointAt line isLoop (i + k)).1 - (pointAt line isLoop (i - k)).1)
        (py + (pointAt line isLoop (i + k)).2 - (pointAt line isLoop (i - k)).2)

/-- The initial window sums (`src/index.js` lines 296-312): the `kernelWidth`
points before index 0 (wrapped for a loop, replicated first point otherwise)
plus the first `kernelWidth` points. -/
def smoothInit (line : List Pt) (isLoop : Bool) (k : Nat) : ℚ × ℚ :=
  let base : ℚ × ℚ :=
    if isLoop then
      ((List.range k).foldl (fun acc j => acc + (line.getD (line.length - k + j) pt0).1) 0,
       (List.range k).foldl (fun acc j => acc + (line.getD (line.length - k + j) pt0).2) 0)
    else ((k : ℚ) * (line.headD pt0).1, (k : ℚ) * (line.headD pt0).2)
  ((List.range k).foldl (fun acc j => acc + (line.getD j pt0).1) base.1,
   (List.range k).foldl (fun acc j => acc + (line.getD j pt0).2) base.2)

/-- One smoothing cycle (`src/index.js` lines 295-328): run the window over
the line and, for a loop, re-assert closure by overwriting the last point
with (a copy of) the first. -/
def smoothCycle (isLoop : Bool) (k : Nat) (line : List Pt) : List Pt :=
  let sc : ℚ := 1 / (2 * (k : ℚ))
  let init := smoothInit line isLoop k
  let res := smoothLoop line isLoop k sc line.length 0 init.1 init.2
  if isLoop then res.set (res.length - 1) (res.headD pt0) else res

/-- `smooth(line, { kernelWidth, cycles })` (`src/index.js` lines 283-331):
detect a closed loop once, then apply the box-filter cycle `cycles` times. -/
def smooth (line : List Pt) (k cycles : Nat) : List Pt :=
  let isLoop : Bool := decide (line.headD pt0 = line.getLastD pt0)
  Nat.rec line (fun _ acc => smoothCycle isLoop k acc) cycles

/-- The options object of `contour` (`src/index.js` line 200) with its
default values. -/
structure COpts where
  maxMipmapLevel : Option Nat := none
  smoothKernelWidth : Nat := 2
  smoothCycles : Nat := 2
  minPoints : Nat := 0
deriving DecidableEq, Repr

/-- The segment list of one `contour` call, scaled and sorted
(`src/index.js` lines 202-212). -/
def ContourMipmap.contourSegs (m : ContourMipmap) (t : ℚ) (opts : COpts) :
    Option (List (Pt × Pt)) :=
  match m.evaluateContour t opts.maxMipmapLevel with
  | none => none
  | some raw => some (sortSegs (raw.map (scaleSeg m.levels)))

/-- The stitching state after the `segments.forEach` loop of one `contour`
call (`src/index.js` lines 219-263). -/
def ContourMipmap.contourStitched (m : ContourMipmap) (t : ℚ) (opts : COpts) :
    Option StitchState :=
  match m.contourSegs t opts with
  | none => none
  | some segs => some (segs.foldl stitchStep stitchInit)

/-- `contour(level, opts)` (`src/index.js` lines 200-274): stitch, collect
closed rings then the remaining open fragments (in `fragmentStart` insertion
order), drop short lines, and smooth the survivors. -/
def ContourMipmap.contour (m : ContourMipmap) (t : ℚ) (opts : COpts) :
    Option (List (List Pt)) :=
  match m.contourStitched t opts with
  | none => none
  | some st =>
    let lines := st.rings ++ st.fstart.map (fun e => st.frags.getD e.2 [])
    some ((lines.filter
        (fun l => opts.minPoints ≤ l.length ∧ opts.smoothKernelWidth * 2 ≤ l.length)).map
      (fun l => smooth l opts.smoothKernelWidth opts.smoothCycles))

/-- `contour` with the pyramid state threaded through explicitly: the body
of `contour` (and everything it calls) only ever reads `this.levels`
(`src/index.js` lines 200-274 contain no assignment to `this.levels` or any
of its members), so the state coming out is the state that went in. -/
def ContourMipmap.contourWithState (m : ContourMipmap) (t : ℚ) (opts : COpts) :
    Option (List (List Pt)) × ContourMipmap :=
  (m.contour t opts, m)

/-! ## Example mipmaps used by the concrete witnesses -/

/-- Shorthand for a finite integer sample. -/
def jq (n : Int) : JSNum := JSNum.num n

/-- A 3x3 raster with a single central peak: its threshold-1 contour is one
closed ring. -/
def peakMap : ContourMipmap :=
  ContourMipmap.mk' [jq 0, jq 0, jq 0, jq 0, jq 2, jq 0, jq 0, jq 0, jq 0] 3 3

/-- A 3x3 raster with a central peak, a NaN hole and a second peak in the
corner: stitching its threshold-1 contour hits a fragment-map key collision. -/
def mismMap : ContourMipmap :=
  ContourMipmap.mk' [jq 0, jq 0, jq 0, jq 0, jq 2, jq 0, jq 0, JSNum.nan, jq 2] 3 3

/-- A 2x1 raster with values 0 and 10, for the `intervals` witness. -/
def rampMap : ContourMipmap := ContourMipmap.mk' [jq 0, jq 10] 2 1


/-! ## C1: the four internal edge visits of a subdivided node -/

/-- C1: the four edge visits a subdivided `node(l, x, y)` performs —
`edgeH(l+1, 2x, 2y)`, `edgeV(l+1, 2x, 2y)`, `edgeH(l+1, 2x, 2y+1)`,
`edgeV(l+1, 2x+1, 2y)` — are exactly the four edges shared between the 2x2
children of the node at level `l+1`: the visited edges are pairwise distinct
(no duplicates), and an edge call belongs to the visit list if and only if
both cells it separates are children of `(x, y)` (no gaps, no outer or
foreign edges). -/
theorem nodeEdgeCalls_exactly_internal_edges (x y : Nat) :
    ((nodeEdgeCalls x y).map edgeCells).Nodup ∧
      ∀ c : EdgeCall, c ∈ nodeEdgeCalls x y ↔
        (edgeCells c).1 ∈ childCells x y ∧ (edgeCells c).2 ∈ childCells x y := by
  refine ⟨by simp [nodeEdgeCalls, edgeCells], ?_⟩
  intro c
  obtain ⟨o, a, b⟩ := c
  cases o <;> simp [nodeEdgeCalls, edgeCells, childCells, Prod.ext_iff] <;> omega

/-! ## C6: the depth cap in `evaluate` -/

/-- For an in-bounds cell with finite min/max values, `evaluate` reduces to
the three-way comparison chain of the source, with the depth cap applied
only to straddling cells. -/
theorem evaluate_normal (levels : List MipLevel) (maxL : Nat) (t : ℚ)
    (l x y : Nat) (ml : MipLevel) (qmn qmx : ℚ)
    (hml : levels[l]? = some ml) (hx : x < ml.width) (hy : y < ml.height)
    (hmn : ml.min.getD (ml.width * y + x) JSNum.nan = JSNum.num qmn)
    (hmx : ml.max.getD (ml.width * y + x) JSNum.nan = JSNum.num qmx) :
    evaluate levels maxL t l x y =
      some (if t ≤ qmn then Cls.above else if qmx < t then Cls.below
        else if maxL ≤ l then Cls.above else Cls.within) := by
  unfold evaluate
  rw [hml]
  simp only [hmn, hmx, JSNum.isFinite, JSNum.getQ, eq_self_iff_true, not_true, or_false]
  rw [if_neg (by omega)]

/-- C6: for an in-bounds cell with finite min/max, once `l ≥ maxMipmapLevel`
a cell that straddles the threshold (`min < t ≤ max`, which would otherwise
be WITHIN) classifies ABOVE; cells with `min ≥ t` classify ABOVE and cells
with `max < t` (and `min < t`) classify BELOW regardless of the depth cap.
The default cap (absent or zero, i.e. falsy, option) is the number of
pyramid levels. -/
theorem evaluate_depth_cap (levels : List MipLevel) (maxL : Nat) (t : ℚ)
    (l x y : Nat) (ml : MipLevel) (qmn qmx : ℚ)
    (hml : levels[l]? = some ml) (hx : x < ml.width) (hy : y < ml.height)
    (hmn : ml.min.getD (ml.width * y + x) JSNum.nan = JSNum.num qmn)
    (hmx : ml.max.getD (ml.width * y + x) JSNum.nan = JSNum.num qmx) :
    (maxL ≤ l → qmn < t → t ≤ qmx → evaluate levels maxL t l x y = some Cls.above) ∧
      (t ≤ qmn → evaluate levels maxL t l x y = some Cls.above) ∧
      (qmn < t → qmx < t → evaluate levels maxL t l x y = some Cls.below) ∧
      (∀ len : Nat, resolveMaxL none len = len ∧ resolveMaxL (some 0) len = len) := by
  rw [evaluate_normal levels maxL t l x y ml qmn qmx hml hx hy hmn hmx]
  refine ⟨?_, ?_, ?_, fun len => ⟨rfl, rfl⟩⟩ <;> intros
  · rw [if_neg (by linarith), if_neg (by linarith), if_pos (by omega)]
  · rw [if_pos (by linarith)]
  · rw [if_neg (by linarith), if_pos (by linarith)]

/-- The single-cell level used by the C6 witness: min 0, max 2. -/
def capCell : MipLevel := { min := [jq 0], max := [jq 2], width := 1, height := 1, scale := 1 }

/-- Witness for C6 at a concrete one-cell level with min 0, max 2: with the
cap at the current level a straddling cell is forced ABOVE; with a high cap
and threshold above the max the cell is BELOW. -/
theorem evaluate_depth_cap_witness :
    evaluate [capCell] 0 1 0 0 0 = some Cls.above ∧
      evaluate [capCell] 5 3 0 0 0 = some Cls.below :=
  ⟨(evaluate_depth_cap [capCell] 0 1 0 0 0 capCell 0 2 rfl (by decide) (by decide)
        (by decide) (by decide)).1 (by decide) (by norm_num) (by norm_num),
    (evaluate_depth_cap [capCell] 5 3 0 0 0 capCell 0 2 rfl (by decide) (by decide)
        (by decide) (by decide)).2.2.1 (by norm_num) (by norm_num)⟩

/-! ## C10: `contour` is deterministic and leaves the pyramid unchanged -/

/-- C10: `contour` threaded with explicit pyramid state returns the pyramid
unchanged (its body only reads `this.levels`; `src/index.js` lines 200-274
contain no write to the pyramid), and a second call with the same threshold
and options on the returned pyramid produces the identical line list, the
levels (min, max, width, height, scale) being identical as well. -/
theorem contour_pure_deterministic (m : ContourMipmap) (t : ℚ) (opts : COpts) :
    (m.contourWithState t opts).2 = m ∧
      (m.contourWithState t opts).2.levels = m.levels ∧
      (ContourMipmap.contourWithState (m.contourWithState t opts).2 t opts).1 =
        (m.contourWithState t opts).1 :=
  ⟨rfl, rfl, rfl⟩

/-! ## C8: pyramid depth and root size -/

/-- `headD` of an append with a non-empty left part. -/
theorem headD_append_left {α : Type} {l₁ l₂ : List α} (d : α) (h : l₁ ≠ []) :
    (l₁ ++ l₂).headD d = l₁.headD d := by
  cases l₁ with
  | nil => exact absurd rfl h
  | cons a as => rfl

/-- The constructor loop always produces at least one level. -/
theorem buildLevelsAux_ne_nil (fuel : Nat) (ml : MipLevel) : buildLevelsAux fuel ml ≠ [] := by
  cases fuel with
  | zero => simp [buildLevelsAux]
  | succ n =>
    unfold buildLevelsAux
    split <;> simp

/-- With sufficient fuel (one unit per cell-dimension), the level list of a
`w x h` starting level has length `ceil(log2(max w h)) + 1` and its head is
the 1x1 root. -/
theorem buildLevelsAux_depth : ∀ (fuel : Nat) (ml : MipLevel),
    ml.width + ml.height ≤ fuel → 1 ≤ ml.width → 1 ≤ ml.height →
    (buildLevelsAux fuel ml).length = Nat.clog 2 (max ml.width ml.height) + 1 ∧
      ((buildLevelsAux fuel ml).headD mlDefault).width = 1 ∧
      ((buildLevelsAux fuel ml).headD mlDefault).height = 1 := by
  intro fuel
  induction fuel with
  | zero => intro ml hf hw hh; omega
  | succ n ih =>
    intro ml hf hw hh
    unfold buildLevelsAux
    by_cases hg : 1 < ml.width ∨ 1 < ml.height
    · rw [if_pos hg]
      have hrw : (mipmapReduce ml).width = (ml.width + 1) / 2 := rfl
      have hrh : (mipmapReduce ml).height = (ml.height + 1) / 2 := rfl
      have hs : (mipmapReduce ml).width + (mipmapReduce ml).height ≤ n := by
        rw [hrw, hrh]; omega
      obtain ⟨hl, hw1, hh1⟩ := ih (mipmapReduce ml) hs (by rw [hrw]; omega) (by rw [hrh]; omega)
      refine ⟨?_, ?_, ?_⟩
      · rw [List.length_append, hl, hrw, hrh]
        have hmax : max ((ml.width + 1) / 2) ((ml.height + 1) / 2) =
            (max ml.width ml.height + 1) / 2 := by omega
        rw [hmax]
        have h2 : (2 : ℕ) ≤ max ml.width ml.height := by omega
        rw [show Nat.clog 2 (max ml.width ml.height) =
            Nat.clog 2 ((max ml.width ml.height + 2 - 1) / 2) + 1 from
          Nat.clog_of_two_le (by norm_num) h2]
        simp
      · rw [headD_append_left mlDefault (buildLevelsAux_ne_nil n (mipmapReduce ml))]
        exact hw1
      · rw [headD_append_left mlDefault (buildLevelsAux_ne_nil n (mipmapReduce ml))]
        exact hh1
    · rw [if_neg hg]
      push_neg at hg
      have h1 : ml.width = 1 ∧ ml.height = 1 := by omega
      simp [h1.1, h1.2]

/-- C8: for a raster with `width ≥ 1` and `height ≥ 1` the constructed
pyramid has exactly `ceil(log2(max(width, height))) + 1` levels, and the
coarsest level `levels[0]` is 1x1. -/
theorem pyramid_depth (raster : List JSNum) (w h : Nat) (hw : 1 ≤ w) (hh : 1 ≤ h) :
    (ContourMipmap.mk' raster w h).levels.length = Nat.clog 2 (max w h) + 1 ∧
      ((ContourMipmap.mk' raster w h).levels.headD mlDefault).width = 1 ∧
      ((ContourMipmap.mk' raster w h).levels.headD mlDefault).height = 1 :=
  buildLevelsAux_depth (w + h)
    { min := raster, max := raster, width := w, height := h, scale := 1 }
    le_rfl hw hh

/-- Witness for C8 on a concrete 3x1 raster: 3 = ceil(log2 3) + 1 levels,
1x1 root. -/
theorem pyramid_depth_witness :
    (ContourMipmap.mk' [jq 5, jq 7, jq 1] 3 1).levels.length = Nat.clog 2 3 + 1 ∧
      ((ContourMipmap.mk' [jq 5, jq 7, jq 1] 3 1).levels.headD mlDefault).width = 1 ∧
      ((ContourMipmap.mk' [jq 5, jq 7, jq 1] 3 1).levels.headD mlDefault).height = 1 :=
  pyramid_depth [jq 5, jq 7, jq 1] 3 1 (by decide) (by decide)

/-! ## C9: the threshold list of `intervals` -/

/-- Every element of the `intervals` loop output is `start + i·step` for its
index `i`. -/
theorem intervalsGo_getD (step mx : ℚ) :
    ∀ (fuel : Nat) (level : ℚ) (i : Nat), i < (intervalsGo step mx fuel level).length →
      (intervalsGo step mx fuel level).getD i 0 = level + i * step := by
  intro fuel
  induction fuel with
  | zero => intro level i hi; simp [intervalsGo] at hi
  | succ n ih =>
    intro level i hi
    unfold intervalsGo at hi ⊢
    by_cases hlt : level < mx
    · rw [if_pos hlt] at hi ⊢
      cases i with
      | zero => simp
      | succ j =>
        simp only [List.getD_cons_succ]
        rw [ih (level + step) j (by simpa using hi)]
        push_cast
        ring
    · rw [if_neg hlt] at hi
      simp at hi

/-- Every element of the `intervals` loop output lies in `[level, mx)`. -/
theorem intervalsGo_mem (step mx : ℚ) (hstep : 0 < step) :
    ∀ (fuel : Nat) (level : ℚ) (t : ℚ), t ∈ intervalsGo step mx fuel level →
      level ≤ t ∧ t < mx := by
  intro fuel
  induction fuel with
  | zero => intro level t ht; simp [intervalsGo] at ht
  | succ n ih =>
    intro level t ht
    unfold intervalsGo at ht
    by_cases hlt : level < mx
    · rw [if_pos hlt] at ht
      rcases List.mem_cons.mp ht with h | h
      · exact ⟨le_of_eq h.symm, h ▸ hlt⟩
      · obtain ⟨h1, h2⟩ := ih (level + step) t h
        exact ⟨by linarith, h2⟩
    · rw [if_neg hlt] at ht
      simp at ht

/-- The `intervals` loop output is strictly ascending. -/
theorem intervalsGo_chain (step mx : ℚ) (hstep : 0 < step) :
    ∀ (fuel : Nat) (level : ℚ),
      List.Chain' (fun a b => a < b) (intervalsGo step mx fuel level) := by
  intro fuel
  induction fuel with
  | zero => intro level; simp [intervalsGo]
  | succ n ih =>
    intro level
    unfold intervalsGo
    by_cases hlt : level < mx
    · rw [if_pos hlt]
      refine List.chain'_cons'.mpr ⟨?_, ih (level + step)⟩
      intro b hb
      have hmem : b ∈ intervalsGo step mx n (level + step) := by
        cases hgo : intervalsGo step mx n (level + step) with
        | nil => rw [hgo] at hb; simp at hb
        | cons c cs => rw [hgo] at hb; simp at hb; simp [hgo, hb]
      have := (intervalsGo_mem step mx hstep n (level + step) b hmem).1
      linarith
    · rw [if_neg hlt]
      simp

/-- C9: for a positive step and finite root min/max, `intervals(step)`
succeeds and returns a strictly ascending arithmetic progression starting at
`ceil(min/step)·step` and spaced by `step`, every element of which satisfies
`min() ≤ t < max()`. -/
theorem intervals_spec (m : ContourMipmap) (step : ℚ) (hstep : 0 < step)
    (mn mx : ℚ) (hmn : m.minJS = JSNum.num mn) (hmx : m.maxJS = JSNum.num mx) :
    ∃ L, m.intervals step = some L ∧
      (∀ i, i < L.length → L.getD i 0 = ⌈mn / step⌉ * step + i * step) ∧
      List.Chain' (fun a b => a < b) L ∧
      ∀ t ∈ L, mn ≤ t ∧ t < mx := by
  refine ⟨intervalsGo step mx (((mx - ⌈mn / step⌉ * step) / step).ceil.toNat + 1)
    (⌈mn / step⌉ * step), ?_, ?_, ?_, ?_⟩
  · unfold ContourMipmap.intervals
    rw [if_neg (not_le.mpr hstep), hmn, hmx]
  · exact intervalsGo_getD step mx _ _
  · exact intervalsGo_chain step mx hstep _ _
  · intro t ht
    obtain ⟨h1, h2⟩ := intervalsGo_mem step mx hstep _ _ t ht
    refine ⟨?_, h2⟩
    have hceil : mn / step ≤ (⌈mn / step⌉ : ℚ) := Int.le_ceil _
    have hmns : mn ≤ ⌈mn / step⌉ * step := by
      rw [div_le_iff₀ hstep] at hceil
      linarith
    linarith

/-- Witness for C9 on the 2x1 ramp raster (min 0, max 10, step 3): the call
succeeds, its first element is 0 and every element lies in `[0, 10)`. -/
theorem intervals_spec_witness :
    (rampMap.intervals 3).isSome = true ∧
      ((rampMap.intervals 3).getD []).getD 0 0 = 0 ∧
      (((rampMap.intervals 3).getD []).all fun t => decide ((0 : ℚ) ≤ t) && decide (t < 10)) = true := by
  obtain ⟨L, hL, hidx, hchain, hmem⟩ :=
    intervals_spec rampMap 3 (by norm_num) 0 10 (by decide) (by decide)
  refine ⟨by rw [hL]; rfl, ?_, ?_⟩
  · rw [hL]
    by_cases h0 : 0 < L.length
    · have := hidx 0 h0
      simpa using this
    · simp only [Option.getD_some]
      have hLnil : L = [] := List.length_eq_zero.mp (by omega)
      simp [hLnil]
  · rw [hL]
    simp only [Option.getD_some, List.all_eq_true]
    intro t ht
    obtain ⟨h1, h2⟩ := hmem t ht
    simp [h1, h2]

/-! ## C4: bounded recursion and in-bounds level accesses -/

/-- The last (finest) level produced by the constructor loop is the
starting raster level itself. -/
theorem buildLevelsAux_getLast (fuel : Nat) : ∀ ml : MipLevel,
    (buildLevelsAux fuel ml).getLast? = some ml := by
  induction fuel with
  | zero => intro ml; rfl
  | succ n ih =>
    intro ml
    unfold buildLevelsAux
    split
    · rw [List.getLast?_concat]
    · rfl

/-- `evaluate` succeeds (no crash) whenever the level index is in bounds. -/
theorem evaluate_isSome (levels : List MipLevel) (maxL : Nat) (t : ℚ) (l x y : Nat)
    (hl : l < levels.length) : ∃ e, evaluate levels maxL t l x y = some e := by
  unfold evaluate
  rw [List.getElem?_eq_getElem hl]
  exact ⟨_, rfl⟩

/-- A WITHIN classification is only ever produced strictly below the depth
cap. -/
theorem evaluate_within_lt (levels : List MipLevel) (maxL : Nat) (t : ℚ) (l x y : Nat)
    (h : evaluate levels maxL t l x y = some Cls.within) : l < maxL := by
  unfold evaluate at h
  cases hml : levels[l]? with
  | none => rw [hml] at h; exact absurd h (by simp)
  | some ml =>
    rw [hml] at h
    simp only [Option.some.injEq] at h
    by_contra hcap
    split_ifs at h with h1 h2 h3 h4 <;> simp_all

/-- A cell of a level whose min and max planes are the same array (the
finest level) never classifies WITHIN: equal min/max is decided by the
ABOVE or BELOW comparison. -/
theorem evaluate_minmax_eq_not_within (levels : List MipLevel) (maxL : Nat) (t : ℚ)
    (l x y : Nat) (ml : MipLevel) (hml : levels[l]? = some ml) (heq : ml.min = ml.max) :
    evaluate levels maxL t l x y ≠ some Cls.within := by
  unfold evaluate
  rw [hml]
  simp only [Option.some.injEq]
  intro h
  rw [heq] at h
  split_ifs at h with h1 h2 h3 h4 <;> simp_all

/-- With the depth cap at the pyramid depth, the traversal never runs out
of levels: recursion is guarded by WITHIN, which cannot occur at the finest
level, so fuel `levels.length - l` suffices and every `this.levels[l]`
access is in bounds. -/
theorem walk_isSome (levels : List MipLevel) (t : ℚ)
    (hbase : ∀ l x y, l = levels.length - 1 →
      evaluate levels levels.length t l x y ≠ some Cls.within) :
    ∀ (fuel : Nat) (k : TKind) (l x y : Nat), levels.length ≤ l + fuel →
      l < levels.length →
      ∃ s, walk levels levels.length t fuel k l x y = some s := by
  intro fuel
  induction fuel with
  | zero => intro k l x y hf hl; omega
  | succ n ih =>
    intro k l x y hf hl
    have hstep : ∀ e x' y', evaluate levels levels.length t l x' y' = some e →
        e = Cls.within → l + 1 < levels.length := by
      intro e x' y' he hew
      have h1 := evaluate_within_lt levels levels.length t l x' y' (hew ▸ he)
      have h2 : l ≠ levels.length - 1 := fun hl1 => hbase l x' y' hl1 (hew ▸ he)
      omega
    cases k with
    | edgeH =>
      obtain ⟨e1, he1⟩ := evaluate_isSome levels levels.length t l x y hl
      obtain ⟨e2, he2⟩ := evaluate_isSome levels levels.length t l (x + 1) y hl
      unfold walk
      rw [he1, he2]
      dsimp only
      split_ifs with h1 h2 h3
      · exact ⟨_, rfl⟩
      · exact ⟨_, rfl⟩
      · have hlt : l + 1 < levels.length := by
          rcases h3 with h | h
          · exact hstep e1 x y he1 h
          · exact hstep e2 (x + 1) y he2 h
        obtain ⟨s1, hs1⟩ := ih TKind.edgeH (l + 1) (2 * x + 1) (2 * y) (by omega) hlt
        obtain ⟨s2, hs2⟩ := ih TKind.edgeH (l + 1) (2 * x + 1) (2 * y + 1) (by omega) hlt
        rw [hs1, hs2]
        exact ⟨_, rfl⟩
      · exact ⟨_, rfl⟩
    | edgeV =>
      obtain ⟨e1, he1⟩ := evaluate_isSome levels levels.length t l x y hl
      obtain ⟨e2, he2⟩ := evaluate_isSome levels levels.length t l x (y + 1) hl
      unfold walk
      rw [he1, he2]
      dsimp only
      split_ifs with h1 h2 h3
      · exact ⟨_, rfl⟩
      · exact ⟨_, rfl⟩
      · have hlt : l + 1 < levels.length := by
          rcases h3 with h | h
          · exact hstep e1 x y he1 h
          · exact hstep e2 x (y + 1) he2 h
        obtain ⟨s1, hs1⟩ := ih TKind.edgeV (l + 1) (2 * x) (2 * y + 1) (by omega) hlt
        obtain ⟨s2, hs2⟩ := ih TKind.edgeV (l + 1) (2 * x + 1) (2 * y + 1) (by omega) hlt
        rw [hs1, hs2]
        exact ⟨_, rfl⟩
      · exact ⟨_, rfl⟩
    | node =>
      obtain ⟨e, he⟩ := evaluate_isSome levels levels.length t l x y hl
      unfold walk
      rw [he]
      dsimp only
      by_cases hw : e = Cls.within
      · rw [if_pos hw]
        have hlt : l + 1 < levels.length := hstep e x y he hw
        obtain ⟨n1, hn1⟩ := ih TKind.node (l + 1) (2 * x) (2 * y) (by omega) hlt
        obtain ⟨n2, hn2⟩ := ih TKind.node (l + 1) (2 * x + 1) (2 * y) (by omega) hlt
        obtain ⟨n3, hn3⟩ := ih TKind.node (l + 1) (2 * x) (2 * y + 1) (by omega) hlt
        obtain ⟨n4, hn4⟩ := ih TKind.node (l + 1) (2 * x + 1) (2 * y + 1) (by omega) hlt
        obtain ⟨s1, hs1⟩ := ih TKind.edgeH (l + 1) (2 * x) (2 * y) (by omega) hlt
        obtain ⟨s2, hs2⟩ := ih TKind.edgeV (l + 1) (2 * x) (2 * y) (by omega) hlt
        obtain ⟨s3, hs3⟩ := ih TKind.edgeH (l + 1) (2 * x) (2 * y + 1) (by omega) hlt
        obtain ⟨s4, hs4⟩ := ih TKind.edgeV (l + 1) (2 * x + 1) (2 * y) (by omega) hlt
        simp only [nodeEdgeCalls, orientKind]
        rw [hn1, hn2, hn3, hn4, hs1, hs2, hs3, hs4]
        exact ⟨_, rfl⟩
      · rw [if_neg hw]
        exact ⟨_, rfl⟩

/-- C4: for every raster and threshold, under the default
`maxMipmapLevel` (the pyramid depth): a cell at the finest level never
classifies WITHIN (its min and max planes are the same raster), hence the
`node`/`edgeH`/`edgeV` recursion never reaches a level index past the
finest level and `evaluateContour` completes without any out-of-bounds
`this.levels[l]` access (no `none` from the level lookup, with recursion
depth bounded by the pyramid depth via the `levels.length + 1` fuel). -/
theorem evaluateContour_in_bounds (raster : List JSNum) (w h : Nat) (t : ℚ) :
    (∀ x y : Nat,
      evaluate (ContourMipmap.mk' raster w h).levels
        ((ContourMipmap.mk' raster w h).levels.length) t
        ((ContourMipmap.mk' raster w h).levels.length - 1) x y ≠ some Cls.within) ∧
      ((ContourMipmap.mk' raster w h).evaluateContour t none).isSome = true := by
  set base : MipLevel :=
    { min := raster, max := raster, width := w, height := h, scale := 1 } with hbase_def
  have hlast : (ContourMipmap.mk' raster w h).levels.getLast? = some base :=
    buildLevelsAux_getLast (w + h) base
  have hlen : 0 < (ContourMipmap.mk' raster w h).levels.length :=
    List.length_pos.mpr (buildLevelsAux_ne_nil (w + h) base)
  have hidx : (ContourMipmap.mk' raster w h).levels[(ContourMipmap.mk' raster w h).levels.length - 1]? = some base := by
    rw [← List.getLast?_eq_getElem?]
    exact hlast
  have hbase : ∀ l x y : Nat, l = (ContourMipmap.mk' raster w h).levels.length - 1 →
      evaluate (ContourMipmap.mk' raster w h).levels
        ((ContourMipmap.mk' raster w h).levels.length) t l x y ≠ some Cls.within := by
    intro l x y hl
    subst hl
    exact evaluate_minmax_eq_not_within _ _ _ _ _ _ _ hidx rfl
  refine ⟨fun x y => hbase _ x y rfl, ?_⟩
  obtain ⟨s, hs⟩ := walk_isSome (ContourMipmap.mk' raster w h).levels t hbase
    ((ContourMipmap.mk' raster w h).levels.length + 1) TKind.node 0 0 0 (by omega) hlen
  unfold ContourMipmap.evaluateContour
  simp only [resolveMaxL]
  rw [hs]
  rfl

/-! ## Footprint characterisation of the pyramid (C3, C7) -/

/-- The nominal footprint of a cell `(x, y)` that sits `d` reduction steps
above the raster: the raster positions beneath it, listed in the recursive
block order of the reduction (top-left, top-right, bottom-left,
bottom-right), possibly extending past the raster edges. -/
def footprint : Nat → Nat → Nat → List (Nat × Nat)
  | 0, x, y => [(x, y)]
  | d + 1, x, y =>
    footprint d (2 * x) (2 * y) ++ footprint d (2 * x + 1) (2 * y) ++
      footprint d (2 * x) (2 * y + 1) ++ footprint d (2 * x + 1) (2 * y + 1)

/-- The rational value of a finite sample, `none` for NaN and infinities. -/
def finQ : JSNum → Option ℚ
  | JSNum.num q => some q
  | _ => none

/-- The raster sample at a position (row-major). -/
def sampleAt (r : List JSNum) (W : Nat) (p : Nat × Nat) : JSNum :=
  r.getD (p.2 * W + p.1) JSNum.nan

/-- The finite raster samples under a cell's footprint, raster-bounds
clipped. -/
def finiteSamples (r : List JSNum) (W H d x y : Nat) : List ℚ :=
  ((footprint d x y).filter (fun p => decide (p.1 < W) && decide (p.2 < H))).filterMap
    (fun p => finQ (sampleAt r W p))

/-- The minimum of a list of rationals in `WithTop ℚ` (`⊤` when empty). -/
def minW (l : List ℚ) : WithTop ℚ :=
  List.foldr (fun (q : ℚ) (acc : WithTop ℚ) => min (q : WithTop ℚ) acc) ⊤ l

/-- The maximum of a list of rationals in `WithBot ℚ` (`⊥` when empty). -/
def maxW (l : List ℚ) : WithBot ℚ :=
  List.foldr (fun (q : ℚ) (acc : WithBot ℚ) => max (q : WithBot ℚ) acc) ⊥ l

/-- A min-plane value as an element of `WithTop ℚ`: every non-finite value
acts as the identity of `min`, exactly as it does in `minFinite`. -/
def toMinQ : JSNum → WithTop ℚ
  | JSNum.num q => (q : WithTop ℚ)
  | _ => ⊤

/-- A max-plane value as an element of `WithBot ℚ`: every non-finite value
acts as the identity of `max`, exactly as it does in `maxFinite`. -/
def toMaxQ : JSNum → WithBot ℚ
  | JSNum.num q => (q : WithBot ℚ)
  | _ => ⊥

/-- A footprint position lies in the half-open square of side `2^d` at the
cell. -/
theorem footprint_bounds : ∀ (d x y : Nat) (p : Nat × Nat), p ∈ footprint d x y →
    x * 2 ^ d ≤ p.1 ∧ p.1 < (x + 1) * 2 ^ d ∧ y * 2 ^ d ≤ p.2 ∧ p.2 < (y + 1) * 2 ^ d := by
  intro d
  induction d with
  | zero => intro x y p hp; simp [footprint] at hp; simp [hp]
  | succ n ih =>
    intro x y p hp
    have hpow : (2 : ℕ) ^ (n + 1) = 2 * 2 ^ n := by ring
    have hpos : (0 : ℕ) < 2 ^ n := by positivity
    simp only [footprint, List.mem_append] at hp
    rcases hp with ((h | h) | h) | h <;> obtain ⟨h1, h2, h3, h4⟩ := ih _ _ p h <;>
      refine ⟨?_, ?_, ?_, ?_⟩ <;> rw [hpow] <;> nlinarith

theorem minW_foldr_init (l : List ℚ) (c : WithTop ℚ) :
    List.foldr (fun (q : ℚ) (acc : WithTop ℚ) => min (q : WithTop ℚ) acc) c l =
      min (minW l) c := by
  induction l with
  | nil => simp [minW]
  | cons a as ih => simp [minW, List.foldr_cons, ih, min_assoc]

theorem minW_append (A B : List ℚ) : minW (A ++ B) = min (minW A) (minW B) := by
  rw [minW, List.foldr_append, ← minW, minW_foldr_init]

theorem maxW_foldr_init (l : List ℚ) (c : WithBot ℚ) :
    List.foldr (fun (q : ℚ) (acc : WithBot ℚ) => max (q : WithBot ℚ) acc) c l =
      max (maxW l) c := by
  induction l with
  | nil => simp [maxW]
  | cons a as ih => simp [maxW, List.foldr_cons, ih, max_assoc]

theorem maxW_append (A B : List ℚ) : maxW (A ++ B) = max (maxW A) (maxW B) := by
  rw [maxW, List.foldr_append, ← maxW, maxW_foldr_init]

theorem minW_eq_top_iff (l : List ℚ) : minW l = ⊤ ↔ l = [] := by
  induction l with
  | nil => simp [minW]
  | cons a as ih =>
    simp only [minW, List.foldr_cons]
    constructor
    · intro h
      rcases min_eq_iff.mp h with ⟨h1, _⟩ | ⟨h1, h2⟩
      · exact absurd h1 (by simp)
      · rw [h1] at h2
        exact absurd (top_le_iff.mp h2) (by simp)
    · intro h
      exact absurd h (List.cons_ne_nil a as)

theorem maxW_eq_bot_iff (l : List ℚ) : maxW l = ⊥ ↔ l = [] := by
  induction l with
  | nil => simp [maxW]
  | cons a as ih =>
    simp only [maxW, List.foldr_cons]
    constructor
    · intro h
      rcases max_eq_iff.mp h with ⟨h1, _⟩ | ⟨h1, h2⟩
      · exact absurd h1 (by simp)
      · rw [h1] at h2
        exact absurd (le_bot_iff.mp h2) (by simp)
    · intro h
      exact absurd h (List.cons_ne_nil a as)

theorem minW_mem (l : List ℚ) (q : ℚ) (h : minW l = (q : WithTop ℚ)) : q ∈ l := by
  induction l with
  | nil => simp [minW] at h
  | cons a as ih =>
    rw [minW, List.foldr_cons, ← minW] at h
    rcases min_eq_iff.mp h with ⟨h1, _⟩ | ⟨h1, _⟩
    · simp only [WithTop.coe_inj] at h1
      simp [h1]
    · exact List.mem_cons_of_mem a (ih h1)

theorem maxW_le (l : List ℚ) (p : ℚ) (hp : p ∈ l) : (p : WithBot ℚ) ≤ maxW l := by
  induction l with
  | nil => simp at hp
  | cons a as ih =>
    rw [maxW, List.foldr_cons, ← maxW]
    rcases List.mem_cons.mp hp with h | h
    · subst h; exact le_max_left _ _
    · exact le_trans (ih h) (le_max_right _ _)

theorem minW_cons (q : ℚ) (l : List ℚ) : minW (q :: l) = min (q : WithTop ℚ) (minW l) := rfl

theorem maxW_cons (q : ℚ) (l : List ℚ) : maxW (q :: l) = max (q : WithBot ℚ) (maxW l) := rfl

theorem toMinQ_step (v r : JSNum) (hv : v ≠ JSNum.ninf) (hr1 : r ≠ JSNum.nan)
    (hr2 : r ≠ JSNum.ninf) :
    toMinQ (if jlt v r then v else r) = min (toMinQ v) (toMinQ r) := by
  cases v <;> cases r <;>
    simp_all [JSNum.jlt, toMinQ, min_top_left, min_top_right] <;>
    split_ifs with h <;>
    simp_all [toMinQ, ← WithTop.coe_min, min_eq_left, min_eq_right, le_of_lt, le_of_not_lt]

theorem toMaxQ_step (v r : JSNum) (hv : v ≠ JSNum.inf) (hr1 : r ≠ JSNum.nan)
    (hr2 : r ≠ JSNum.inf) :
    toMaxQ (if jgt v r then v else r) = max (toMaxQ v) (toMaxQ r) := by
  cases v <;> cases r <;>
    simp_all [JSNum.jgt, toMaxQ, max_bot_left, max_bot_right] <;>
    split_ifs with h <;>
    simp_all [toMaxQ, ← WithBot.coe_max, max_eq_left, max_eq_right, le_of_lt, le_of_not_lt]

theorem minStep_ne (v r : JSNum) (hv : v ≠ JSNum.ninf) (hr1 : r ≠ JSNum.nan)
    (hr2 : r ≠ JSNum.ninf) :
    (if jlt v r then v else r) ≠ JSNum.nan ∧ (if jlt v r then v else r) ≠ JSNum.ninf := by
  split_ifs with h
  · refine ⟨fun hn => ?_, hv⟩
    subst hn
    cases r <;> simp [JSNum.jlt] at h
  · exact ⟨hr1, hr2⟩

theorem maxStep_ne (v r : JSNum) (hv : v ≠ JSNum.inf) (hr1 : r ≠ JSNum.nan)
    (hr2 : r ≠ JSNum.inf) :
    (if jgt v r then v else r) ≠ JSNum.nan ∧ (if jgt v r then v else r) ≠ JSNum.inf := by
  split_ifs with h
  · refine ⟨fun hn => ?_, hv⟩
    subst hn
    cases r <;> simp [JSNum.jgt] at h
  · exact ⟨hr1, hr2⟩

theorem minFinite_acc (args : List JSNum) : ∀ r : JSNum, r ≠ JSNum.nan → r ≠ JSNum.ninf →
    (∀ v ∈ args, v ≠ JSNum.ninf) →
    toMinQ (args.foldl (fun r v => if jlt v r then v else r) r) =
      min (toMinQ r) (minW (args.filterMap finQ)) := by
  induction args with
  | nil =>
    intro r hr1 hr2 hargs
    simp [minW, min_eq_left le_top]
  | cons v rest ih =>
    intro r hr1 hr2 hargs
    have hv : v ≠ JSNum.ninf := hargs v (List.mem_cons_self v rest)
    have hrest : ∀ w ∈ rest, w ≠ JSNum.ninf := fun w hw => hargs w (List.mem_cons_of_mem v hw)
    obtain ⟨hs1, hs2⟩ := minStep_ne v r hv hr1 hr2
    rw [List.foldl_cons, ih _ hs1 hs2 hrest, toMinQ_step v r hv hr1 hr2]
    cases v with
    | num q =>
      have hfm : (JSNum.num q :: rest).filterMap finQ = q :: rest.filterMap finQ := by
        simp [finQ]
      rw [hfm, minW_cons, show toMinQ (JSNum.num q) = (q : WithTop ℚ) from rfl]
      simp [min_comm, min_left_comm, min_assoc]
    | nan => simp [finQ, List.filterMap_cons, toMinQ, min_top_left]
    | inf => simp [finQ, List.filterMap_cons, toMinQ, min_top_left]
    | ninf => exact absurd rfl hv

theorem maxFinite_acc (args : List JSNum) : ∀ r : JSNum, r ≠ JSNum.nan → r ≠ JSNum.inf →
    (∀ v ∈ args, v ≠ JSNum.inf) →
    toMaxQ (args.foldl (fun r v => if jgt v r then v else r) r) =
      max (toMaxQ r) (maxW (args.filterMap finQ)) := by
  induction args with
  | nil =>
    intro r hr1 hr2 hargs
    simp [maxW, max_eq_left bot_le]
  | cons v rest ih =>
    intro r hr1 hr2 hargs
    have hv : v ≠ JSNum.inf := hargs v (List.mem_cons_self v rest)
    have hrest : ∀ w ∈ rest, w ≠ JSNum.inf := fun w hw => hargs w (List.mem_cons_of_mem v hw)
    obtain ⟨hs1, hs2⟩ := maxStep_ne v r hv hr1 hr2
    rw [List.foldl_cons, ih _ hs1 hs2 hrest, toMaxQ_step v r hv hr1 hr2]
    cases v with
    | num q =>
      have hfm : (JSNum.num q :: rest).filterMap finQ = q :: rest.filterMap finQ := by
        simp [finQ]
      rw [hfm, maxW_cons, show toMaxQ (JSNum.num q) = (q : WithBot ℚ) from rfl]
      simp [max_comm, max_left_comm, max_assoc]
    | nan => simp [finQ, List.filterMap_cons, toMaxQ, max_bot_left]
    | ninf => simp [finQ, List.filterMap_cons, toMaxQ, max_bot_left]
    | inf => exact absurd rfl hv

theorem toMinQ_minFinite (args : List JSNum) (hargs : ∀ v ∈ args, v ≠ JSNum.ninf) :
    toMinQ (minFinite args) = minW (args.filterMap finQ) := by
  rw [minFinite, minFinite_acc args JSNum.inf (by simp) (by simp) hargs]
  simp [toMinQ, min_top_left]

theorem toMaxQ_maxFinite (args : List JSNum) (hargs : ∀ v ∈ args, v ≠ JSNum.inf) :
    toMaxQ (maxFinite args) = maxW (args.filterMap finQ) := by
  rw [maxFinite, maxFinite_acc args JSNum.ninf (by simp) (by simp) hargs]
  simp [toMaxQ, max_bot_left]

theorem minFinite_ne_ninf (args : List JSNum) (hargs : ∀ v ∈ args, v ≠ JSNum.ninf) :
    minFinite args ≠ JSNum.ninf := by
  rw [minFinite]
  have : ∀ r : JSNum, r ≠ JSNum.nan → r ≠ JSNum.ninf →
      ∀ as : List JSNum, (∀ v ∈ as, v ≠ JSNum.ninf) →
      as.foldl (fun r v => if jlt v r then v else r) r ≠ JSNum.ninf := by
    intro r hr1 hr2 as
    induction as generalizing r with
    | nil => intro _; exact hr2
    | cons v rest ih =>
      intro has
      have hv : v ≠ JSNum.ninf := has v (List.mem_cons_self v rest)
      obtain ⟨hs1, hs2⟩ := minStep_ne v r hv hr1 hr2
      exact ih _ hs1 hs2 (fun w hw => has w (List.mem_cons_of_mem v hw))
  exact this JSNum.inf (by simp) (by simp) args hargs

theorem maxFinite_ne_inf (args : List JSNum) (hargs : ∀ v ∈ args, v ≠ JSNum.inf) :
    maxFinite args ≠ JSNum.inf := by
  rw [maxFinite]
  have : ∀ r : JSNum, r ≠ JSNum.nan → r ≠ JSNum.inf →
      ∀ as : List JSNum, (∀ v ∈ as, v ≠ JSNum.inf) →
      as.foldl (fun r v => if jgt v r then v else r) r ≠ JSNum.inf := by
    intro r hr1 hr2 as
    induction as generalizing r with
    | nil => intro _; exact hr2
    | cons v rest ih =>
      intro has
      have hv : v ≠ JSNum.inf := has v (List.mem_cons_self v rest)
      obtain ⟨hs1, hs2⟩ := maxStep_ne v r hv hr1 hr2
      exact ih _ hs1 hs2 (fun w hw => has w (List.mem_cons_of_mem v hw))
  exact this JSNum.ninf (by simp) (by simp) args hargs

/-- The min entry of a reduced cell is the `minFinite` of its block. -/
theorem mipmapReduce_min_getD (ml : MipLevel) (x y : Nat)
    (hx : x < (ml.width + 1) / 2) (hy : y < (ml.height + 1) / 2) :
    (mipmapReduce ml).min.getD ((mipmapReduce ml).width * y + x) JSNum.nan =
      minFinite (blockSamples ml.min ml.width ml.height x y) := by
  have hoW : 0 < (ml.width + 1) / 2 := by omega
  have hi : (ml.width + 1) / 2 * y + x < (ml.width + 1) / 2 * ((ml.height + 1) / 2) := by
    calc (ml.width + 1) / 2 * y + x < (ml.width + 1) / 2 * y + (ml.width + 1) / 2 := by omega
      _ = (ml.width + 1) / 2 * (y + 1) := by ring
      _ ≤ (ml.width + 1) / 2 * ((ml.height + 1) / 2) :=
        Nat.mul_le_mul_left _ (Nat.succ_le_of_lt hy)
  have hmod : ((ml.width + 1) / 2 * y + x) % ((ml.width + 1) / 2) = x := by
    rw [Nat.mul_add_mod]
    exact Nat.mod_eq_of_lt hx
  have hdiv : ((ml.width + 1) / 2 * y + x) / ((ml.width + 1) / 2) = y := by
    rw [Nat.mul_add_div hoW, Nat.div_eq_of_lt hx]
    omega
  show ((List.range ((ml.width + 1) / 2 * ((ml.height + 1) / 2))).map
      (fun i => minFinite (blockSamples ml.min ml.width ml.height
        (i % ((ml.width + 1) / 2)) (i / ((ml.width + 1) / 2))))).getD
      ((ml.width + 1) / 2 * y + x) JSNum.nan = _
  rw [List.getD_eq_getElem?_getD, List.getElem?_map, List.getElem?_range hi]
  simp [hmod, hdiv]

/-- The max entry of a reduced cell is the `maxFinite` of its block. -/
theorem mipmapReduce_max_getD (ml : MipLevel) (x y : Nat)
    (hx : x < (ml.width + 1) / 2) (hy : y < (ml.height + 1) / 2) :
    (mipmapReduce ml).max.getD ((mipmapReduce ml).width * y + x) JSNum.nan =
      maxFinite (blockSamples ml.max ml.width ml.height x y) := by
  have hoW : 0 < (ml.width + 1) / 2 := by omega
  have hi : (ml.width + 1) / 2 * y + x < (ml.width + 1) / 2 * ((ml.height + 1) / 2) := by
    calc (ml.width + 1) / 2 * y + x < (ml.width + 1) / 2 * y + (ml.width + 1) / 2 := by omega
      _ = (ml.width + 1) / 2 * (y + 1) := by ring
      _ ≤ (ml.width + 1) / 2 * ((ml.height + 1) / 2) :=
        Nat.mul_le_mul_left _ (Nat.succ_le_of_lt hy)
  have hmod : ((ml.width + 1) / 2 * y + x) % ((ml.width + 1) / 2) = x := by
    rw [Nat.mul_add_mod]
    exact Nat.mod_eq_of_lt hx
  have hdiv : ((ml.width + 1) / 2 * y + x) / ((ml.width + 1) / 2) = y := by
    rw [Nat.mul_add_div hoW, Nat.div_eq_of_lt hx]
    omega
  show ((List.range ((ml.width + 1) / 2 * ((ml.height + 1) / 2))).map
      (fun i => maxFinite (blockSamples ml.max ml.width ml.height
        (i % ((ml.width + 1) / 2)) (i / ((ml.width + 1) / 2))))).getD
      ((ml.width + 1) / 2 * y + x) JSNum.nan = _
  rw [List.getD_eq_getElem?_getD, List.getElem?_map, List.getElem?_range hi]
  simp [hmod, hdiv]

theorem finiteSamples_succ (r : List JSNum) (W H d x y : Nat) :
    finiteSamples r W H (d + 1) x y =
      finiteSamples r W H d (2 * x) (2 * y) ++ finiteSamples r W H d (2 * x + 1) (2 * y) ++
        finiteSamples r W H d (2 * x) (2 * y + 1) ++
        finiteSamples r W H d (2 * x + 1) (2 * y + 1) := by
  simp [finiteSamples, footprint, List.filter_append, List.filterMap_append]

theorem finiteSamples_nil_right (r : List JSNum) (W H d x y : Nat) (h : W ≤ x * 2 ^ d) :
    finiteSamples r W H d x y = [] := by
  rw [finiteSamples, List.filter_eq_nil_iff.mpr, List.filterMap_nil]
  intro p hp
  have hb := (footprint_bounds d x y p hp).1
  simp only [Bool.and_eq_true, decide_eq_true_eq, not_and]
  intro hx
  omega

theorem finiteSamples_nil_bottom (r : List JSNum) (W H d x y : Nat) (h : H ≤ y * 2 ^ d) :
    finiteSamples r W H d x y = [] := by
  rw [finiteSamples, List.filter_eq_nil_iff.mpr, List.filterMap_nil]
  intro p hp
  have hb := (footprint_bounds d x y p hp).2.2.1
  simp only [Bool.and_eq_true, decide_eq_true_eq, not_and]
  intro hx
  omega

theorem minW_filterMap_cons (v : JSNum) (rest : List JSNum) :
    minW ((v :: rest).filterMap finQ) = min (toMinQ v) (minW (rest.filterMap finQ)) := by
  cases v <;> simp [finQ, toMinQ, minW_cons, List.filterMap_cons, min_top_left]

theorem maxW_filterMap_cons (v : JSNum) (rest : List JSNum) :
    maxW ((v :: rest).filterMap finQ) = max (toMaxQ v) (maxW (rest.filterMap finQ)) := by
  cases v <;> simp [finQ, toMaxQ, maxW_cons, List.filterMap_cons, max_bot_left]

/-- Characterisation of a pyramid level sitting `d` reduction steps above
the raster: each cell's min (resp. max) entry is, seen in `WithTop ℚ`
(resp. `WithBot ℚ`), the exact minimum (resp. maximum) of the finite raster
samples under its footprint, the min plane never holds `-Infinity`, the max
plane never holds `Infinity`, and the level is wide enough to cover the
raster. -/
structure LevelChar (r : List JSNum) (W H d : Nat) (ml : MipLevel) : Prop where
  wbound : W ≤ ml.width * 2 ^ d
  hbound : H ≤ ml.height * 2 ^ d
  minChar : ∀ x y : Nat, x < ml.width → y < ml.height →
    toMinQ (ml.min.getD (ml.width * y + x) JSNum.nan) = minW (finiteSamples r W H d x y) ∧
      ml.min.getD (ml.width * y + x) JSNum.nan ≠ JSNum.ninf
  maxChar : ∀ x y : Nat, x < ml.width → y < ml.height →
    toMaxQ (ml.max.getD (ml.width * y + x) JSNum.nan) = maxW (finiteSamples r W H d x y) ∧
      ml.max.getD (ml.width * y + x) JSNum.nan ≠ JSNum.inf

/-- The raster level itself satisfies the characterisation at depth 0. -/
theorem levelChar_base (r : List JSNum) (W H : Nat)
    (hfin : ∀ v ∈ r, v ≠ JSNum.inf ∧ v ≠ JSNum.ninf) :
    LevelChar r W H 0 { min := r, max := r, width := W, height := H, scale := 1 } := by
  have hval : ∀ (idx : Nat), r.getD idx JSNum.nan ≠ JSNum.inf ∧ r.getD idx JSNum.nan ≠ JSNum.ninf := by
    intro idx
    by_cases hidx : idx < r.length
    · rw [List.getD_eq_getElem?_getD, List.getElem?_eq_getElem hidx]
      exact hfin _ (List.getElem_mem hidx)
    · rw [List.getD_eq_getElem?_getD, List.getElem?_eq_none (by omega)]
      simp
  refine ⟨by simp, by simp, ?_, ?_⟩
  · intro x y hx hy
    have hfs : finiteSamples r W H 0 x y = (finQ (r.getD (y * W + x) JSNum.nan)).toList := by
      simp [finiteSamples, footprint, sampleAt, hx, hy, List.filterMap_cons]
      cases finQ (r.getD (y * W + x) JSNum.nan) <;> rfl
    have hidx : W * y + x = y * W + x := by ring
    rw [hidx, hfs]
    rcases hv : r.getD (y * W + x) JSNum.nan with _ | _ | _ | q
    · simp [toMinQ, finQ, minW]
    · exact absurd hv (by have := (hval (y * W + x)).1; simp_all)
    · exact absurd hv (by have := (hval (y * W + x)).2; simp_all)
    · simp [toMinQ, finQ, minW_cons, minW, min_eq_left le_top]
  · intro x y hx hy
    have hfs : finiteSamples r W H 0 x y = (finQ (r.getD (y * W + x) JSNum.nan)).toList := by
      simp [finiteSamples, footprint, sampleAt, hx, hy, List.filterMap_cons]
      cases finQ (r.getD (y * W + x) JSNum.nan) <;> rfl
    have hidx : W * y + x = y * W + x := by ring
    rw [hidx, hfs]
    rcases hv : r.getD (y * W + x) JSNum.nan with _ | _ | _ | q
    · simp [toMaxQ, finQ, maxW]
    · exact absurd hv (by have := (hval (y * W + x)).1; simp_all)
    · exact absurd hv (by have := (hval (y * W + x)).2; simp_all)
    · simp [toMaxQ, finQ, maxW_cons, maxW, max_eq_left bot_le]

/-- Every sample a reduction block reads is an in-range-child entry of the
input plane. -/
theorem blockSamples_mem (data : List JSNum) (w h x y : Nat) (v : JSNum)
    (hv : v ∈ blockSamples data w h x y) :
    ∃ cx cy, (cx = 2 * x ∨ cx = 2 * x + 1) ∧ (cy = 2 * y ∨ cy = 2 * y + 1) ∧
      (cx = 2 * x + 1 → cx < w) ∧ (cy = 2 * y + 1 → cy < h) ∧
      v = data.getD (cy * w + cx) JSNum.nan := by
  dsimp only [blockSamples] at hv
  split_ifs at hv with h1 h2 h3 <;>
    simp only [List.mem_cons, List.not_mem_nil, or_false] at hv
  · rcases hv with rfl | rfl | rfl | rfl
    · exact ⟨2 * x, 2 * y, by omega, by omega, by omega, by omega, rfl⟩
    · exact ⟨2 * x + 1, 2 * y, by omega, by omega, by omega, by omega, rfl⟩
    · exact ⟨2 * x, 2 * y + 1, by omega, by omega, by omega, by omega, rfl⟩
    · exact ⟨2 * x + 1, 2 * y + 1, by omega, by omega, by omega, by omega, rfl⟩
  · rcases hv with rfl | rfl
    · exact ⟨2 * x, 2 * y, by omega, by omega, by omega, by omega, rfl⟩
    · exact ⟨2 * x, 2 * y + 1, by omega, by omega, by omega, by omega, rfl⟩
  · rcases hv with rfl | rfl
    · exact ⟨2 * x, 2 * y, by omega, by omega, by omega, by omega, rfl⟩
    · exact ⟨2 * x + 1, 2 * y, by omega, by omega, by omega, by omega, rfl⟩
  · rcases hv with rfl
    exact ⟨2 * x, 2 * y, by omega, by omega, by omega, by omega, rfl⟩

/-- One `mipmapReduce` step preserves the characterisation. -/
theorem levelChar_step (r : List JSNum) (W H d : Nat) (ml : MipLevel)
    (hc : LevelChar r W H d ml) : LevelChar r W H (d + 1) (mipmapReduce ml) := by
  have htop : ∀ z : WithTop ℚ, min z ⊤ = z := fun z => min_eq_left le_top
  have hbot : ∀ z : WithBot ℚ, max z ⊥ = z := fun z => max_eq_left bot_le
  have hIHmin : ∀ cx cy, cx < ml.width → cy < ml.height →
      toMinQ (ml.min.getD (cy * ml.width + cx) JSNum.nan) = minW (finiteSamples r W H d cx cy) ∧
        ml.min.getD (cy * ml.width + cx) JSNum.nan ≠ JSNum.ninf := by
    intro cx cy h1 h2
    rw [Nat.mul_comm cy ml.width]
    exact hc.minChar cx cy h1 h2
  have hIHmax : ∀ cx cy, cx < ml.width → cy < ml.height →
      toMaxQ (ml.max.getD (cy * ml.width + cx) JSNum.nan) = maxW (finiteSamples r W H d cx cy) ∧
        ml.max.getD (cy * ml.width + cx) JSNum.nan ≠ JSNum.inf := by
    intro cx cy h1 h2
    rw [Nat.mul_comm cy ml.width]
    exact hc.maxChar cx cy h1 h2
  have hwb : W ≤ (mipmapReduce ml).width * 2 ^ (d + 1) := by
    calc W ≤ ml.width * 2 ^ d := hc.wbound
      _ ≤ 2 * ((ml.width + 1) / 2) * 2 ^ d := Nat.mul_le_mul_right _ (by omega)
      _ = (ml.width + 1) / 2 * 2 ^ (d + 1) := by ring
  have hhb : H ≤ (mipmapReduce ml).height * 2 ^ (d + 1) := by
    calc H ≤ ml.height * 2 ^ d := hc.hbound
      _ ≤ 2 * ((ml.height + 1) / 2) * 2 ^ d := Nat.mul_le_mul_right _ (by omega)
      _ = (ml.height + 1) / 2 * 2 ^ (d + 1) := by ring
  refine ⟨hwb, hhb, ?_, ?_⟩
  · intro x y hx hy
    have hx' : x < (ml.width + 1) / 2 := hx
    have hy' : y < (ml.height + 1) / 2 := hy
    have hTLx : 2 * x < ml.width := by omega
    have hTLy : 2 * y < ml.height := by omega
    have hn : ∀ v ∈ blockSamples ml.min ml.width ml.height x y, v ≠ JSNum.ninf := by
      intro v hv
      obtain ⟨cx, cy, hcx, hcy, hcxw, hcyh, rfl⟩ := blockSamples_mem ml.min ml.width ml.height x y v hv
      exact (hIHmin cx cy (by rcases hcx with rfl | rfl; exact hTLx; exact hcxw rfl)
        (by rcases hcy with rfl | rfl; exact hTLy; exact hcyh rfl)).2
    refine ⟨?_, ?_⟩
    · rw [mipmapReduce_min_getD ml x y hx' hy', toMinQ_minFinite _ hn, finiteSamples_succ,
        minW_append, minW_append, minW_append]
      dsimp only [blockSamples]
      split_ifs with h1 h2 h3
      · rw [minW_filterMap_cons, minW_filterMap_cons, minW_filterMap_cons, minW_filterMap_cons,
          (hIHmin (2 * x) (2 * y) hTLx hTLy).1, (hIHmin (2 * x + 1) (2 * y) h1.1 hTLy).1,
          (hIHmin (2 * x) (2 * y + 1) hTLx h1.2).1, (hIHmin (2 * x + 1) (2 * y + 1) h1.1 h1.2).1]
        simp [minW, htop, min_assoc]
      · have hTR : finiteSamples r W H d (2 * x + 1) (2 * y) = [] :=
          finiteSamples_nil_right r W H d (2 * x + 1) (2 * y)
            (le_trans hc.wbound (Nat.mul_le_mul_right _ (by omega)))
        have hBR : finiteSamples r W H d (2 * x + 1) (2 * y + 1) = [] :=
          finiteSamples_nil_right r W H d (2 * x + 1) (2 * y + 1)
            (le_trans hc.wbound (Nat.mul_le_mul_right _ (by omega)))
        rw [minW_filterMap_cons, minW_filterMap_cons,
          (hIHmin (2 * x) (2 * y) hTLx hTLy).1, (hIHmin (2 * x) (2 * y + 1) hTLx h2).1,
          hTR, hBR]
        simp [minW, htop, min_assoc]
      · have hBL : finiteSamples r W H d (2 * x) (2 * y + 1) = [] :=
          finiteSamples_nil_bottom r W H d (2 * x) (2 * y + 1)
            (le_trans hc.hbound (Nat.mul_le_mul_right _ (by omega)))
        have hBR : finiteSamples r W H d (2 * x + 1) (2 * y + 1) = [] :=
          finiteSamples_nil_bottom r W H d (2 * x + 1) (2 * y + 1)
            (le_trans hc.hbound (Nat.mul_le_mul_right _ (by omega)))
        rw [minW_filterMap_cons, minW_filterMap_cons,
          (hIHmin (2 * x) (2 * y) hTLx hTLy).1, (hIHmin (2 * x + 1) (2 * y) h3 hTLy).1,
          hBL, hBR]
        simp [minW, htop, min_assoc]
      · have hTR : finiteSamples r W H d (2 * x + 1) (2 * y) = [] :=
          finiteSamples_nil_right r W H d (2 * x + 1) (2 * y)
            (le_trans hc.wbound (Nat.mul_le_mul_right _ (by omega)))
        have hBL : finiteSamples r W H d (2 * x) (2 * y + 1) = [] :=
          finiteSamples_nil_bottom r W H d (2 * x) (2 * y + 1)
            (le_trans hc.hbound (Nat.mul_le_mul_right _ (by omega)))
        have hBR : finiteSamples r W H d (2 * x + 1) (2 * y + 1) = [] :=
          finiteSamples_nil_right r W H d (2 * x + 1) (2 * y + 1)
            (le_trans hc.wbound (Nat.mul_le_mul_right _ (by omega)))
        rw [minW_filterMap_cons, (hIHmin (2 * x) (2 * y) hTLx hTLy).1, hTR, hBL, hBR]
        simp [minW, htop, min_assoc]
    · rw [mipmapReduce_min_getD ml x y hx' hy']
      exact minFinite_ne_ninf _ hn
  · intro x y hx hy
    have hx' : x < (ml.width + 1) / 2 := hx
    have hy' : y < (ml.height + 1) / 2 := hy
    have hTLx : 2 * x < ml.width := by omega
    have hTLy : 2 * y < ml.height := by omega
    have hn : ∀ v ∈ blockSamples ml.max ml.width ml.height x y, v ≠ JSNum.inf := by
      intro v hv
      obtain ⟨cx, cy, hcx, hcy, hcxw, hcyh, rfl⟩ := blockSamples_mem ml.max ml.width ml.height x y v hv
      exact (hIHmax cx cy (by rcases hcx with rfl | rfl; exact hTLx; exact hcxw rfl)
        (by rcases hcy with rfl | rfl; exact hTLy; exact hcyh rfl)).2
    refine ⟨?_, ?_⟩
    · rw [mipmapReduce_max_getD ml x y hx' hy', toMaxQ_maxFinite _ hn, finiteSamples_succ,
        maxW_append, maxW_append, maxW_append]
      dsimp only [blockSamples]
      split_ifs with h1 h2 h3
      · rw [maxW_filterMap_cons, maxW_filterMap_cons, maxW_filterMap_cons, maxW_filterMap_cons,
          (hIHmax (2 * x) (2 * y) hTLx hTLy).1, (hIHmax (2 * x + 1) (2 * y) h1.1 hTLy).1,
          (hIHmax (2 * x) (2 * y + 1) hTLx h1.2).1, (hIHmax (2 * x + 1) (2 * y + 1) h1.1 h1.2).1]
        simp [maxW, hbot, max_assoc]
      · have hTR : finiteSamples r W H d (2 * x + 1) (2 * y) = [] :=
          finiteSamples_nil_right r W H d (2 * x + 1) (2 * y)
            (le_trans hc.wbound (Nat.mul_le_mul_right _ (by omega)))
        have hBR : finiteSamples r W H d (2 * x + 1) (2 * y + 1) = [] :=
          finiteSamples_nil_right r W H d (2 * x + 1) (2 * y + 1)
            (le_trans hc.wbound (Nat.mul_le_mul_right _ (by omega)))
        rw [maxW_filterMap_cons, maxW_filterMap_cons,
          (hIHmax (2 * x) (2 * y) hTLx hTLy).1, (hIHmax (2 * x) (2 * y + 1) hTLx h2).1,
          hTR, hBR]
        simp [maxW, hbot, max_assoc]
      · have hBL : finiteSamples r W H d (2 * x) (2 * y + 1) = [] :=
          finiteSamples_nil_bottom r W H d (2 * x) (2 * y + 1)
            (le_trans hc.hbound (Nat.mul_le_mul_right _ (by omega)))
        have hBR : finiteSamples r W H d (2 * x + 1) (2 * y + 1) = [] :=
          finiteSamples_nil_bottom r W H d (2 * x + 1) (2 * y + 1)
            (le_trans hc.hbound (Nat.mul_le_mul_right _ (by omega)))
        rw [maxW_filterMap_cons, maxW_filterMap_cons,
          (hIHmax (2 * x) (2 * y) hTLx hTLy).1, (hIHmax (2 * x + 1) (2 * y) h3 hTLy).1,
          hBL, hBR]
        simp [maxW, hbot, max_assoc]
      · have hTR : finiteSamples r W H d (2 * x + 1) (2 * y) = [] :=
          finiteSamples_nil_right r W H d (2 * x + 1) (2 * y)
            (le_trans hc.wbound (Nat.mul_le_mul_right _ (by omega)))
        have hBL : finiteSamples r W H d (2 * x) (2 * y + 1) = [] :=
          finiteSamples_nil_bottom r W H d (2 * x) (2 * y + 1)
            (le_trans hc.hbound (Nat.mul_le_mul_right _ (by omega)))
        have hBR : finiteSamples r W H d (2 * x + 1) (2 * y + 1) = [] :=
          finiteSamples_nil_right r W H d (2 * x + 1) (2 * y + 1)
            (le_trans hc.wbound (Nat.mul_le_mul_right _ (by omega)))
        rw [maxW_filterMap_cons, (hIHmax (2 * x) (2 * y) hTLx hTLy).1, hTR, hBL, hBR]
        simp [maxW, hbot, max_assoc]
    · rw [mipmapReduce_max_getD ml x y hx' hy']
      exact maxFinite_ne_inf _ hn

/-- Adjacent levels of the constructor output: each level is the reduction
of the next finer one. -/
theorem buildLevelsAux_consec : ∀ (fuel : Nat) (ml : MipLevel) (i : Nat) (a b : MipLevel),
    (buildLevelsAux fuel ml)[i]? = some a → (buildLevelsAux fuel ml)[i + 1]? = some b →
    a = mipmapReduce b := by
  intro fuel
  induction fuel with
  | zero =>
    intro ml i a b ha hb
    cases i with
    | zero => simp [buildLevelsAux] at hb
    | succ j => simp [buildLevelsAux] at ha
  | succ n ih =>
    intro ml i a b ha hb
    unfold buildLevelsAux at ha hb
    by_cases hg : 1 < ml.width ∨ 1 < ml.height
    · rw [if_pos hg] at ha hb
      set A := buildLevelsAux n (mipmapReduce ml) with hA
      rcases lt_trichotomy (i + 1) A.length with hlt | heq | hgt
      · rw [List.getElem?_append_left (by omega)] at ha
        rw [List.getElem?_append_left hlt] at hb
        exact ih (mipmapReduce ml) i a b ha hb
      · rw [List.getElem?_append_left (by omega)] at ha
        rw [List.getElem?_append_right (by omega), heq] at hb
        simp only [Nat.sub_self, List.getElem?_cons_zero, Option.some.injEq] at hb
        have hlast : A.getLast? = some (mipmapReduce ml) := buildLevelsAux_getLast n (mipmapReduce ml)
        rw [List.getLast?_eq_getElem?] at hlast
        have hi : i = A.length - 1 := by omega
        rw [hi] at ha
        rw [ha] at hlast
        subst hb
        exact (Option.some.injEq _ _).mp hlast
      · rw [List.getElem?_append_right (by omega)] at hb
        have : i + 1 - A.length ≥ 1 := by omega
        rw [List.getElem?_eq_none (by simp; omega)] at hb
        exact absurd hb (by simp)
    · rw [if_neg hg] at ha hb
      cases i with
      | zero => simp at hb
      | succ j => simp at ha

/-- Every level of a constructed pyramid over a finite-or-NaN raster is
characterised by its descent depth `d = depth - 1 - l`. -/
theorem mk'_levelChar (raster : List JSNum) (W H : Nat)
    (hfin : ∀ v ∈ raster, v ≠ JSNum.inf ∧ v ≠ JSNum.ninf) :
    ∀ (d l : Nat), l + d + 1 = (ContourMipmap.mk' raster W H).levels.length →
      ∀ ml : MipLevel, (ContourMipmap.mk' raster W H).levels[l]? = some ml →
      LevelChar raster W H d ml := by
  intro d
  induction d with
  | zero =>
    intro l hl ml hml
    have hlast : (ContourMipmap.mk' raster W H).levels.getLast? =
        some { min := raster, max := raster, width := W, height := H, scale := 1 } :=
      buildLevelsAux_getLast (W + H) _
    rw [List.getLast?_eq_getElem?] at hlast
    have hidx : l = (ContourMipmap.mk' raster W H).levels.length - 1 := by omega
    rw [hidx, hlast] at hml
    cases hml
    exact levelChar_base raster W H hfin
  | succ n ih =>
    intro l hl ml hml
    have hl1 : l + 1 < (ContourMipmap.mk' raster W H).levels.length := by omega
    have hnext : ∃ ml', (ContourMipmap.mk' raster W H).levels[l + 1]? = some ml' :=
      ⟨_, List.getElem?_eq_getElem hl1⟩
    obtain ⟨ml', hml'⟩ := hnext
    have hred : ml = mipmapReduce ml' := buildLevelsAux_consec (W + H) _ l ml ml' hml hml'
    rw [hred]
    exact levelChar_step raster W H n ml' (ih (l + 1) (by omega) ml' hml')

theorem isFinite_false_iff_toMinQ (v : JSNum) : v.isFinite = false ↔ toMinQ v = ⊤ := by
  cases v <;> simp [JSNum.isFinite, toMinQ]

theorem isFinite_false_iff_toMaxQ (v : JSNum) : v.isFinite = false ↔ toMaxQ v = ⊥ := by
  cases v <;> simp [JSNum.isFinite, toMaxQ]

theorem finQ_eq_none_iff (v : JSNum) : finQ v = none ↔ v.isFinite = false := by
  cases v <;> simp [finQ, JSNum.isFinite]

theorem finiteSamples_eq_nil_iff (r : List JSNum) (W H d x y : Nat) :
    finiteSamples r W H d x y = [] ↔
      ∀ p ∈ footprint d x y, p.1 < W → p.2 < H → (sampleAt r W p).isFinite = false := by
  rw [finiteSamples, List.filterMap_eq_nil_iff]
  constructor
  · intro h p hp h1 h2
    rw [← finQ_eq_none_iff]
    exact h p (List.mem_filter.mpr ⟨hp, by simp [h1, h2]⟩)
  · intro h p hp
    obtain ⟨hmem, hcond⟩ := List.mem_filter.mp hp
    simp only [Bool.and_eq_true, decide_eq_true_eq] at hcond
    rw [finQ_eq_none_iff]
    exact h p hmem hcond.1 hcond.2

/-- C3 (amended): for a finite-or-NaN raster, a pyramid cell's min/max pair
is non-finite iff every raster sample under its footprint is non-finite, and
the min entry is non-finite iff the max entry is. -/
theorem pyramid_nonfinite_iff (raster : List JSNum) (W H : Nat)
    (hfin : ∀ v ∈ raster, v ≠ JSNum.inf ∧ v ≠ JSNum.ninf)
    (l x y : Nat) (ml : MipLevel)
    (hml : (ContourMipmap.mk' raster W H).levels[l]? = some ml)
    (hx : x < ml.width) (hy : y < ml.height) :
    (((ml.min.getD (ml.width * y + x) JSNum.nan).isFinite = false ∧
        (ml.max.getD (ml.width * y + x) JSNum.nan).isFinite = false) ↔
      ∀ p ∈ footprint ((ContourMipmap.mk' raster W H).levels.length - 1 - l) x y,
        p.1 < W → p.2 < H → (sampleAt raster W p).isFinite = false) ∧
      ((ml.min.getD (ml.width * y + x) JSNum.nan).isFinite = false ↔
        (ml.max.getD (ml.width * y + x) JSNum.nan).isFinite = false) := by
  have hlt : l < (ContourMipmap.mk' raster W H).levels.length := by
    by_contra hge
    rw [List.getElem?_eq_none (by omega)] at hml
    exact absurd hml (by simp)
  have hc := mk'_levelChar raster W H hfin
    ((ContourMipmap.mk' raster W H).levels.length - 1 - l) l (by omega) ml hml
  have hmin : (ml.min.getD (ml.width * y + x) JSNum.nan).isFinite = false ↔
      finiteSamples raster W H ((ContourMipmap.mk' raster W H).levels.length - 1 - l) x y = [] := by
    rw [isFinite_false_iff_toMinQ, (hc.minChar x y hx hy).1, minW_eq_top_iff]
  have hmax : (ml.max.getD (ml.width * y + x) JSNum.nan).isFinite = false ↔
      finiteSamples raster W H ((ContourMipmap.mk' raster W H).levels.length - 1 - l) x y = [] := by
    rw [isFinite_false_iff_toMaxQ, (hc.maxChar x y hx hy).1, maxW_eq_bot_iff]
  refine ⟨?_, by rw [hmin, hmax]⟩
  rw [← finiteSamples_eq_nil_iff]
  constructor
  · intro h
    exact hmin.mp h.1
  · intro h
    exact ⟨hmin.mpr h, hmax.mpr h⟩

/-- C3 counterexample: for the 2x1 all-NaN raster, every sample of the root
cell's footprint is NaN, yet the root min and max are `Infinity` and `-Infinity`,
not `NaN` and `NaN` as the claim states: `minFinite`/`maxFinite` leave their
initial accumulators untouched when every input comparison is false. -/
theorem pyramid_nan_counterexample :
    ((footprint 1 0 0).all fun p =>
        sampleAt [JSNum.nan, JSNum.nan] 2 p == JSNum.nan) = true ∧
      ((ContourMipmap.mk' [JSNum.nan, JSNum.nan] 2 1).levels.headD mlDefault).min.getD 0
          JSNum.nan = JSNum.inf ∧
      ((ContourMipmap.mk' [JSNum.nan, JSNum.nan] 2 1).levels.headD mlDefault).max.getD 0
          JSNum.nan = JSNum.ninf ∧
      JSNum.inf ≠ JSNum.nan ∧ JSNum.ninf ≠ JSNum.nan := by
  decide

/-- The samples a reduction block reads are exactly the entries of the
in-bounds cells among the four children of the output cell. -/
theorem blockSamples_eq_children (data : List JSNum) (w h x y : Nat)
    (hx : 2 * x < w) (hy : 2 * y < h) :
    blockSamples data w h x y =
      ((childCells x y).filter (fun c => decide (c.1 < w) && decide (c.2 < h))).map
        (fun c => data.getD (c.2 * w + c.1) JSNum.nan) := by
  dsimp only [blockSamples, childCells]
  split_ifs with h1 h2 h3
  · simp [List.filter_cons, hx, hy, h1.1, h1.2]
  · have hxn : ¬ (2 * x + 1 < w) := by tauto
    simp [List.filter_cons, hx, hy, hxn, h2]
  · have hyn : ¬ (2 * y + 1 < h) := by tauto
    simp [List.filter_cons, hx, hy, hyn, h3]
  · have hxn : ¬ (2 * x + 1 < w) := by tauto
    have hyn : ¬ (2 * y + 1 < h) := by tauto
    simp [List.filter_cons, hx, hy, hxn, hyn]

/-- C7: for a finite-or-NaN raster, every in-bounds pyramid cell with finite
min and max has `min ≤ max`, and at every non-finest level the cell's min
(resp. max) entry is exactly the `minFinite` (resp. `maxFinite`) reduction
of the min (resp. max) entries of the up-to-4 child cells directly beneath
it at the next finer level. -/
theorem pyramid_cell_minmax (raster : List JSNum) (W H : Nat)
    (hfin : ∀ v ∈ raster, v ≠ JSNum.inf ∧ v ≠ JSNum.ninf)
    (l x y : Nat) (ml : MipLevel)
    (hml : (ContourMipmap.mk' raster W H).levels[l]? = some ml)
    (hx : x < ml.width) (hy : y < ml.height) :
    (∀ qmn qmx : ℚ, ml.min.getD (ml.width * y + x) JSNum.nan = JSNum.num qmn →
      ml.max.getD (ml.width * y + x) JSNum.nan = JSNum.num qmx → qmn ≤ qmx) ∧
      ∀ mlNext : MipLevel, (ContourMipmap.mk' raster W H).levels[l + 1]? = some mlNext →
        ml.min.getD (ml.width * y + x) JSNum.nan =
            minFinite (blockSamples mlNext.min mlNext.width mlNext.height x y) ∧
          ml.max.getD (ml.width * y + x) JSNum.nan =
            maxFinite (blockSamples mlNext.max mlNext.width mlNext.height x y) ∧
          blockSamples mlNext.min mlNext.width mlNext.height x y =
            ((childCells x y).filter
                (fun c => decide (c.1 < mlNext.width) && decide (c.2 < mlNext.height))).map
              (fun c => mlNext.min.getD (c.2 * mlNext.width + c.1) JSNum.nan) ∧
          blockSamples mlNext.max mlNext.width mlNext.height x y =
            ((childCells x y).filter
                (fun c => decide (c.1 < mlNext.width) && decide (c.2 < mlNext.height))).map
              (fun c => mlNext.max.getD (c.2 * mlNext.width + c.1) JSNum.nan) := by
  have hlt : l < (ContourMipmap.mk' raster W H).levels.length := by
    by_contra hge
    rw [List.getElem?_eq_none (by omega)] at hml
    exact absurd hml (by simp)
  have hc := mk'_levelChar raster W H hfin
    ((ContourMipmap.mk' raster W H).levels.length - 1 - l) l (by omega) ml hml
  constructor
  · intro qmn qmx hqmn hqmx
    have h1 := (hc.minChar x y hx hy).1
    have h2 := (hc.maxChar x y hx hy).1
    rw [hqmn] at h1
    rw [hqmx] at h2
    have hmem : qmn ∈ finiteSamples raster W H
        ((ContourMipmap.mk' raster W H).levels.length - 1 - l) x y :=
      minW_mem _ qmn (by rw [← h1]; rfl)
    have hle : (qmn : WithBot ℚ) ≤ (qmx : WithBot ℚ) := by
      calc (qmn : WithBot ℚ) ≤ maxW (finiteSamples raster W H
          ((ContourMipmap.mk' raster W H).levels.length - 1 - l) x y) := maxW_le _ qmn hmem
        _ = (qmx : WithBot ℚ) := by rw [← h2]; rfl
    exact_mod_cast hle
  · intro mlNext hmlNext
    have hred : ml = mipmapReduce mlNext :=
      buildLevelsAux_consec (W + H) _ l ml mlNext hml hmlNext
    subst hred
    have hx' : x < (mlNext.width + 1) / 2 := hx
    have hy' : y < (mlNext.height + 1) / 2 := hy
    refine ⟨mipmapReduce_min_getD mlNext x y hx' hy',
      mipmapReduce_max_getD mlNext x y hx' hy',
      blockSamples_eq_children mlNext.min mlNext.width mlNext.height x y (by omega) (by omega),
      blockSamples_eq_children mlNext.max mlNext.width mlNext.height x y (by omega) (by omega)⟩

/-- Witness for the amended C3 on a 1x1 NaN raster. -/
theorem pyramid_nonfinite_iff_witness :
    (sampleAt [JSNum.nan] 1 (0, 0)).isFinite = false := by
  have h := (pyramid_nonfinite_iff [JSNum.nan] 1 1 (by decide) 0 0 0
      { min := [JSNum.nan], max := [JSNum.nan], width := 1, height := 1, scale := 1 }
      (by decide) (by decide) (by decide)).1.mp ⟨by decide, by decide⟩
  exact h (0, 0) (by decide) (by decide) (by decide)

/-- Witness for C7 on a 2x1 raster with values 1 and 5. -/
theorem pyramid_cell_minmax_witness :
    (1 : ℚ) ≤ 5 ∧
      ({ min := [jq 1], max := [jq 5], width := 1, height := 1, scale := 2 } :
          MipLevel).min.getD 0 JSNum.nan =
        minFinite (blockSamples [jq 1, jq 5] 2 1 0 0) := by
  have h := pyramid_cell_minmax [jq 1, jq 5] 2 1 (by decide) 0 0 0
      { min := [jq 1], max := [jq 5], width := 1, height := 1, scale := 2 }
      (by decide) (by decide) (by decide)
  refine ⟨h.1 1 5 (by decide) (by decide), ?_⟩
  exact (h.2 { min := [jq 1, jq 5], max := [jq 1, jq 5], width := 2, height := 1, scale := 1 }
    (by decide)).1

/-- Points produced by the traversal have integer coordinates below 65536
(grid indices times powers of two), where the `key` packing is injective. -/
def GoodPt (p : Pt) : Prop :=
  (∃ a : ℕ, a < 65536 ∧ p.1 = (a : ℚ)) ∧ ∃ b : ℕ, b < 65536 ∧ p.2 = (b : ℚ)


/-- On such points `key` is injective: `a[0] + a[1]*65536` determines both
coordinates. -/
theorem key_inj (p q : Pt) (hp : GoodPt p) (hq : GoodPt q) (h : key p = key q) : p = q := by
  obtain ⟨⟨a1, ha1, hp1⟩, ⟨b1, hb1, hp2⟩⟩ := hp
  obtain ⟨⟨a2, ha2, hq1⟩, ⟨b2, hb2, hq2⟩⟩ := hq
  unfold key at h
  rw [hp1, hp2, hq1, hq2] at h
  have hnat : (((a1 + b1 * 65536 : ℕ) : ℚ)) = ((a2 + b2 * 65536 : ℕ) : ℚ) := by
    push_cast
    linarith
  have h2 : a1 + b1 * 65536 = a2 + b2 * 65536 := Nat.cast_injective hnat
  have ha : a1 = a2 ∧ b1 = b2 := by omega
  have hfst : p.1 = q.1 := by rw [hp1, hq1, ha.1]
  have hsnd : p.2 = q.2 := by rw [hp2, hq2, ha.2]
  exact Prod.ext hfst hsnd

/-- A successful map lookup comes from an entry of the association list. -/
theorem omapGet_mem (m : OMap) (k : ℚ) (v : Nat) (h : omapGet m k = some v) :
    (k, v) ∈ m := by
  unfold omapGet at h
  cases hf : m.find? (fun e => decide (e.1 = k)) with
  | none => rw [hf] at h; simp at h
  | some e =>
    rw [hf] at h
    simp only [Option.map_some', Option.some.injEq] at h
    have h1 := List.find?_some hf
    have h2 := List.mem_of_find?_eq_some hf
    simp only [decide_eq_true_eq] at h1
    have : e = (k, v) := by
      obtain ⟨e1, e2⟩ := e
      simp only at h1 h
      rw [h1, h]
    rw [← this]
    exact h2

/-- A failed lookup means no entry carries the key. -/
theorem omapGet_none (m : OMap) (k : ℚ) (h : omapGet m k = none) :
    ∀ kv ∈ m, kv.1 ≠ k := by
  unfold omapGet at h
  cases hf : m.find? (fun e => decide (e.1 = k)) with
  | some e => rw [hf] at h; simp at h
  | none =>
    intro kv hkv
    have := List.find?_eq_none.mp hf kv hkv
    simpa using this

/-- Every entry of `omapSet m k v` is `(k, v)` or an entry of `m` with a key
other than `k`. -/
theorem omapSet_mem (m : OMap) (k : ℚ) (v : Nat) (kv : ℚ × Nat)
    (h : kv ∈ omapSet m k v) : kv = (k, v) ∨ (kv ∈ m ∧ kv.1 ≠ k) := by
  unfold omapSet at h
  split_ifs at h with hany
  · obtain ⟨e, he, heq⟩ := List.mem_map.mp h
    by_cases hek : e.1 = k
    · left
      rw [if_pos hek] at heq
      exact heq.symm
    · right
      rw [if_neg hek] at heq
      exact ⟨heq ▸ he, heq ▸ hek⟩
  · rcases List.mem_append.mp h with h1 | h1
    · right
      refine ⟨h1, fun hk => ?_⟩
      have : m.any (fun e => decide (e.1 = k)) = true := List.any_eq_true.mpr ⟨kv, h1, by simp [hk]⟩
      exact absurd this hany
    · left
      simpa using h1

/-- Membership in a map after deletion. -/
theorem omapDel_mem (m : OMap) (k : ℚ) (kv : ℚ × Nat) :
    kv ∈ omapDel m k ↔ kv ∈ m ∧ kv.1 ≠ k := by
  unfold omapDel
  rw [List.mem_filter]
  simp

/-- The consistency invariant of the stitching state: every map entry points
to a non-empty stored fragment whose first (for `fragmentStart`) or last
(for `fragmentEnd`) point has exactly the entry's key, every stored point is
a small-integer grid point, and every recorded ring is closed. -/
structure SInv (st : StitchState) : Prop where
  store : ∀ f ∈ st.frags, ∀ p ∈ f, GoodPt p
  startCons : ∀ kv ∈ st.fstart, ∃ f, st.frags[kv.2]? = some f ∧ f ≠ [] ∧
    key (f.headD pt0) = kv.1
  endCons : ∀ kv ∈ st.fend, ∃ f, st.frags[kv.2]? = some f ∧ f ≠ [] ∧
    key (f.getLastD pt0) = kv.1
  ringsClosed : ∀ r ∈ st.rings, r ≠ [] ∧ r.headD pt0 = r.getLastD pt0

/-- The stitching invariant holds in the initial state. -/
theorem sInv_init : SInv stitchInit := by
  refine ⟨?_, ?_, ?_, ?_⟩ <;> intro kv hkv <;> exact absurd hkv (List.not_mem_nil _)

/-- The default head of a nonempty list is a member. -/
theorem headD_mem {α : Type} (l : List α) (d : α) (h : l ≠ []) : l.headD d ∈ l := by
  cases l with
  | nil => exact absurd rfl h
  | cons x xs => exact List.mem_cons_self x xs

/-- Relating `List.getD` to a successful `getElem?`. -/
theorem getD_of_getElem? {α : Type} (l : List α) (i : Nat) (f : α) (d : α)
    (h : l[i]? = some f) : l.getD i d = f := by
  rw [List.getD_eq_getElem?_getD, h]
  rfl

/-- A successful `getElem?` index is in bounds. -/
theorem lt_of_getElem?_some {α : Type} (l : List α) (i : Nat) (f : α)
    (h : l[i]? = some f) : i < l.length := by
  by_contra hge
  rw [List.getElem?_eq_none (by omega)] at h
  exact absurd h (by simp)

/-- The stitching invariant is preserved by one step on a segment with
well-formed endpoints, through all five branches. -/
theorem sInv_step (st : StitchState) (seg : Pt × Pt) (hinv : SInv st)
    (hgs : GoodPt seg.1) (hge : GoodPt seg.2) : SInv (stitchStep st seg) := by
  obtain ⟨s, e⟩ := seg
  have hgoodD : ∀ i : Nat, ∀ p ∈ st.frags.getD i [], GoodPt p := by
    intro i p hp
    rcases hfi : st.frags[i]? with _ | f
    · rw [List.getD_eq_getElem?_getD, hfi] at hp
      exact absurd hp (List.not_mem_nil p)
    · rw [getD_of_getElem? st.frags i f [] hfi] at hp
      exact hinv.store f (List.getElem?_mem hfi) p hp
  unfold stitchStep
  simp only
  cases hga : omapGet st.fend (key s) with
  | some a =>
    obtain ⟨fa, hfa, hfane, hfakey⟩ := hinv.endCons (key s, a) (omapGet_mem _ _ _ hga)
    have hfaD : st.frags.getD a [] = fa := getD_of_getElem? _ _ _ _ hfa
    have haLt : a < st.frags.length := lt_of_getElem?_some _ _ _ hfa
    cases hgb : omapGet st.fstart (key e) with
    | some b =>
      dsimp only
      obtain ⟨fb, hfb, hfbne, hfbkey⟩ := hinv.startCons (key e, b) (omapGet_mem _ _ _ hgb)
      have hfbD : st.frags.getD b [] = fb := getD_of_getElem? _ _ _ _ hfb
      have hbLt : b < st.frags.length := lt_of_getElem?_some _ _ _ hfb
      by_cases hab : a = b
      · rw [if_pos hab]
        refine ⟨hinv.store, ?_, ?_, ?_⟩
        · intro kv hkv
          exact hinv.startCons kv ((omapDel_mem _ _ _).mp hkv).1
        · intro kv hkv
          exact hinv.endCons kv ((omapDel_mem _ _ _).mp hkv).1
        · intro r hr
          rcases List.mem_append.mp hr with hr | hr
          · exact hinv.ringsClosed r hr
          · have hre : r = st.frags.getD a [] ++ [e] := by simpa using hr
            subst hre
            rw [hfaD]
            have hfab : fa = fb := by
              rw [hab] at hfa
              rw [hfa] at hfb
              exact (Option.some.injEq _ _).mp hfb
            have hheq : key (fa.headD pt0) = key e := by rw [hfab]; exact hfbkey
            have hhead : fa.headD pt0 = e :=
              key_inj _ _ (hinv.store fa (List.getElem?_mem hfa) _ (headD_mem fa pt0 hfane))
                hge hheq
            refine ⟨by simp, ?_⟩
            rw [headD_append_left pt0 hfane, List.getLastD_concat, hhead]
      · rw [if_neg hab]
        have hcne : st.frags.getD a [] ++ st.frags.getD b [] ≠ [] := by
          rw [hfaD, hfbD]
          simp [hfane]
        refine ⟨?_, ?_, ?_, hinv.ringsClosed⟩
        · intro f hf
          rcases List.mem_append.mp hf with hf | hf
          · exact hinv.store f hf
          · have : f = st.frags.getD a [] ++ st.frags.getD b [] := by simpa using hf
            subst this
            intro p hp
            rcases List.mem_append.mp hp with hp | hp
            · exact hgoodD a p hp
            · exact hgoodD b p hp
        · intro kv hkv
          rcases omapSet_mem _ _ _ _ hkv with hkv | ⟨hkv, hne⟩
          · subst hkv
            refine ⟨st.frags.getD a [] ++ st.frags.getD b [], ?_, hcne, rfl⟩
            exact List.getElem?_concat_length _ _
          · obtain ⟨f, hf, hfne, hfkey⟩ := hinv.startCons kv ((omapDel_mem _ _ _).mp hkv).1
            refine ⟨f, ?_, hfne, hfkey⟩
            rw [List.getElem?_append_left (lt_of_getElem?_some _ _ _ hf)]
            exact hf
        · intro kv hkv
          rcases omapSet_mem _ _ _ _ hkv with hkv | ⟨hkv, hne⟩
          · subst hkv
            refine ⟨st.frags.getD a [] ++ st.frags.getD b [], ?_, hcne, rfl⟩
            exact List.getElem?_concat_length _ _
          · obtain ⟨f, hf, hfne, hfkey⟩ := hinv.endCons kv ((omapDel_mem _ _ _).mp hkv).1
            refine ⟨f, ?_, hfne, hfkey⟩
            rw [List.getElem?_append_left (lt_of_getElem?_some _ _ _ hf)]
            exact hf
    | none =>
      dsimp only
      refine ⟨?_, ?_, ?_, hinv.ringsClosed⟩
      · intro f hf
        rcases List.mem_or_eq_of_mem_set hf with hf | hf
        · exact hinv.store f hf
        · subst hf
          intro p hp
          rcases List.mem_append.mp hp with hp | hp
          · exact hgoodD a p hp
          · have : p = e := by simpa using hp
            subst this
            exact hge
      · intro kv hkv
        obtain ⟨f, hf, hfne, hfkey⟩ := hinv.startCons kv hkv
        by_cases hkva : kv.2 = a
        · refine ⟨st.frags.getD a [] ++ [e], ?_, by simp [hfaD, hfane], ?_⟩
          · rw [hkva, List.getElem?_set_eq haLt]
          · have hffa : f = fa := by
              rw [hkva] at hf
              rw [hf] at hfa
              exact (Option.some.injEq _ _).mp hfa
            rw [hfaD, headD_append_left pt0 hfane, ← hffa]
            exact hfkey
        · refine ⟨f, ?_, hfne, hfkey⟩
          rw [List.getElem?_set_ne (fun hh => hkva hh.symm)]
          exact hf
      · intro kv hkv
        rcases omapSet_mem _ _ _ _ hkv with hkv | ⟨hkv, hne⟩
        · subst hkv
          refine ⟨st.frags.getD a [] ++ [e], ?_, by simp [hfaD, hfane], ?_⟩
          · rw [List.getElem?_set_eq haLt]
          · rw [List.getLastD_concat]
        · have hkv' := (omapDel_mem _ _ _).mp hkv
          obtain ⟨f, hf, hfne, hfkey⟩ := hinv.endCons kv hkv'.1
          by_cases hkva : kv.2 = a
          · exfalso
            have hffa : f = fa := by
              rw [hkva] at hf
              rw [hf] at hfa
              exact (Option.some.injEq _ _).mp hfa
            rw [hffa] at hfkey
            rw [hfakey] at hfkey
            exact hkv'.2 hfkey.symm
          · refine ⟨f, ?_, hfne, hfkey⟩
            rw [List.getElem?_set_ne (fun hh => hkva hh.symm)]
            exact hf
  | none =>
    cases hgb : omapGet st.fstart (key e) with
    | some b =>
      dsimp only
      obtain ⟨fb, hfb, hfbne, hfbkey⟩ := hinv.startCons (key e, b) (omapGet_mem _ _ _ hgb)
      have hfbD : st.frags.getD b [] = fb := getD_of_getElem? _ _ _ _ hfb
      have hbLt : b < st.frags.length := lt_of_getElem?_some _ _ _ hfb
      refine ⟨?_, ?_, ?_, hinv.ringsClosed⟩
      · intro f hf
        rcases List.mem_or_eq_of_mem_set hf with hf | hf
        · exact hinv.store f hf
        · subst hf
          intro p hp
          rcases List.mem_cons.mp hp with hp | hp
          · subst hp
            exact hgs
          · exact hgoodD b p hp
      · intro kv hkv
        rcases omapSet_mem _ _ _ _ hkv with hkv | ⟨hkv, hne⟩
        · subst hkv
          refine ⟨s :: st.frags.getD b [], ?_, by simp, by simp⟩
          rw [List.getElem?_set_eq hbLt]
        · have hkv' := (omapDel_mem _ _ _).mp hkv
          obtain ⟨f, hf, hfne, hfkey⟩ := hinv.startCons kv hkv'.1
          by_cases hkvb : kv.2 = b
          · exfalso
            have hffb : f = fb := by
              rw [hkvb] at hf
              rw [hf] at hfb
              exact (Option.some.injEq _ _).mp hfb
            rw [hffb, hfbkey] at hfkey
            exact hkv'.2 hfkey.symm
          · refine ⟨f, ?_, hfne, hfkey⟩
            rw [List.getElem?_set_ne (fun hh => hkvb hh.symm)]
            exact hf
      · intro kv hkv
        obtain ⟨f, hf, hfne, hfkey⟩ := hinv.endCons kv hkv
        by_cases hkvb : kv.2 = b
        · refine ⟨s :: st.frags.getD b [], ?_, by simp, ?_⟩
          · rw [hkvb, List.getElem?_set_eq hbLt]
          · have hffb : f = fb := by
              rw [hkvb] at hf
              rw [hf] at hfb
              exact (Option.some.injEq _ _).mp hfb
            rw [hfbD]
            have : (s :: fb).getLastD pt0 = fb.getLastD pt0 := by
              cases fb with
              | nil => exact absurd rfl hfbne
              | cons x xs => simp [List.getLastD]
            rw [this, ← hffb]
            exact hfkey
        · refine ⟨f, ?_, hfne, hfkey⟩
          rw [List.getElem?_set_ne (fun hh => hkvb hh.symm)]
          exact hf
    | none =>
      dsimp only
      refine ⟨?_, ?_, ?_, hinv.ringsClosed⟩
      · intro f hf
        rcases List.mem_append.mp hf with hf | hf
        · exact hinv.store f hf
        · have : f = [s, e] := by simpa using hf
          subst this
          intro p hp
          rcases List.mem_cons.mp hp with hp | hp
          · subst hp; exact hgs
          · have : p = e := by simpa using hp
            subst this; exact hge
      · intro kv hkv
        rcases omapSet_mem _ _ _ _ hkv with hkv | ⟨hkv, hne⟩
        · subst hkv
          exact ⟨[s, e], List.getElem?_concat_length _ _, by simp, by simp⟩
        · obtain ⟨f, hf, hfne, hfkey⟩ := hinv.startCons kv hkv
          refine ⟨f, ?_, hfne, hfkey⟩
          rw [List.getElem?_append_left (lt_of_getElem?_some _ _ _ hf)]
          exact hf
      · intro kv hkv
        rcases omapSet_mem _ _ _ _ hkv with hkv | ⟨hkv, hne⟩
        · subst hkv
          exact ⟨[s, e], List.getElem?_concat_length _ _, by simp, by simp⟩
        · obtain ⟨f, hf, hfne, hfkey⟩ := hinv.endCons kv hkv
          refine ⟨f, ?_, hfne, hfkey⟩
          rw [List.getElem?_append_left (lt_of_getElem?_some _ _ _ hf)]
          exact hf

/-- The stitching invariant is preserved by folding over any segment list
with well-formed endpoints. -/
theorem sInv_fold : ∀ (segs : List (Pt × Pt)) (st : StitchState), SInv st →
    (∀ sg ∈ segs, GoodPt sg.1 ∧ GoodPt sg.2) → SInv (segs.foldl stitchStep st) := by
  intro segs
  induction segs with
  | nil => intro st hst _; exact hst
  | cons sg rest ih =>
    intro st hst hgood
    rw [List.foldl_cons]
    exact ih (stitchStep st sg)
      (sInv_step st sg hst (hgood sg (List.mem_cons_self sg rest)).1
        (hgood sg (List.mem_cons_self sg rest)).2)
      (fun sg' hsg' => hgood sg' (List.mem_cons_of_mem sg hsg'))

/-- One pass of the smoothing filter preserves the point count. -/
theorem smoothLoop_length (line : List Pt) (isLoop : Bool) (k : Nat) (sc : ℚ) :
    ∀ (n : Nat) (i : ℤ) (px py : ℚ), (smoothLoop line isLoop k sc n i px py).length = n := by
  intro n
  induction n with
  | zero => intro i px py; rfl
  | succ m ih => intro i px py; simp [smoothLoop, ih]

/-- Overwriting the last position sets the default last element. -/
theorem getLastD_set_last {α : Type} : ∀ (l : List α) (v d : α), l ≠ [] →
    (l.set (l.length - 1) v).getLastD d = v
  | [], v, d, h => absurd rfl h
  | [x], v, d, _ => rfl
  | x :: y :: ys, v, d, _ => by
    rw [show (x :: y :: ys).length - 1 = ys.length + 1 from rfl, List.set_cons_succ,
      List.getLastD_cons]
    exact getLastD_set_last (y :: ys) v x (by simp)

/-- Overwriting the last position of a list with at least two points leaves
the default head unchanged. -/
theorem headD_set_last {α : Type} : ∀ (l : List α) (d : α), l ≠ [] →
    (l.set (l.length - 1) (l.headD d)).headD d = l.headD d := by
  intro l d h
  cases l with
  | nil => exact absurd rfl h
  | cons x xs =>
    cases xs with
    | nil => rfl
    | cons y ys => rfl

/-- One smoothing cycle of a closed ring with at least two points is again
closed and keeps its length. -/
theorem smoothCycle_closed (k : Nat) (line : List Pt) (h : line ≠ []) :
    smoothCycle true k line ≠ [] ∧
      (smoothCycle true k line).headD pt0 = (smoothCycle true k line).getLastD pt0 ∧
      (smoothCycle true k line).length = line.length := by
  unfold smoothCycle
  simp only [if_true]
  set res := smoothLoop line true k (1 / (2 * (k : ℚ)))
    line.length 0 (smoothInit line true k).1 (smoothInit line true k).2 with hres
  have hlen : res.length = line.length := smoothLoop_length line true k _ _ _ _ _
  have hne : res ≠ [] := by
    intro hnil
    rw [hnil] at hlen
    exact h (List.length_eq_zero.mp hlen.symm)
  refine ⟨?_, ?_, ?_⟩
  · intro hnil
    have h2 : (res.set (res.length - 1) (res.headD pt0)).length = 0 := by rw [hnil]; rfl
    rw [List.length_set] at h2
    exact hne (List.length_eq_zero.mp h2)
  · rw [headD_set_last res pt0 hne, getLastD_set_last res (res.headD pt0) pt0 hne]
  · rw [List.length_set]
    exact hlen

/-- On a closed ring `smooth` iterates `smoothCycle` the requested number of
times. -/
theorem smooth_eq_of_closed (line : List Pt) (k c : Nat)
    (hcl : line.headD pt0 = line.getLastD pt0) :
    smooth line k c = Nat.rec line (fun _ acc => smoothCycle true k acc) c := by
  unfold smooth
  rw [decide_eq_true hcl]

/-- Any number of smoothing cycles keeps a closed ring closed and nonempty. -/
theorem smooth_closed (line : List Pt) (k : Nat) (h : line ≠ [])
    (hcl : line.headD pt0 = line.getLastD pt0) (c : Nat) :
    smooth line k c ≠ [] ∧
      (smooth line k c).headD pt0 = (smooth line k c).getLastD pt0 := by
  rw [smooth_eq_of_closed line k c hcl]
  induction c with
  | zero => exact ⟨h, hcl⟩
  | succ n ih =>
    obtain ⟨hne, hcln⟩ := ih
    have hc := smoothCycle_closed k (Nat.rec line (fun _ acc => smoothCycle true k acc) n) hne
    exact ⟨hc.1, hc.2.1⟩

/-- C5: every ring produced by the stitching loop of `contour()` (under the
domain assumption that all stitched segment endpoints are integer grid
points below 65536, where the packed `Map` key is injective) has its first
point exactly equal to its last point, and it stays non-empty and exactly
closed after every number of smoothing cycles of the box filter that
`contour` applies to it. -/
theorem contour_rings_closed (m : ContourMipmap) (t : ℚ) (opts : COpts)
    (hgood : ∀ sg ∈ (m.contourSegs t opts).getD [], GoodPt sg.1 ∧ GoodPt sg.2)
    (r : List Pt) (hr : r ∈ ((m.contourStitched t opts).map StitchState.rings).getD [])
    (c : Nat) :
    (r ≠ [] ∧ r.headD pt0 = r.getLastD pt0) ∧
      smooth r opts.smoothKernelWidth c ≠ [] ∧
      (smooth r opts.smoothKernelWidth c).headD pt0 =
        (smooth r opts.smoothKernelWidth c).getLastD pt0 := by
  cases hseg : m.contourSegs t opts with
  | none =>
    rw [ContourMipmap.contourStitched, hseg] at hr
    exact absurd hr (List.not_mem_nil r)
  | some segs =>
    have hst : m.contourStitched t opts = some (segs.foldl stitchStep stitchInit) := by
      rw [ContourMipmap.contourStitched, hseg]
    rw [hst] at hr
    simp only [Option.map_some', Option.getD_some] at hr
    rw [hseg] at hgood
    have hinv := sInv_fold segs stitchInit sInv_init (by simpa using hgood)
    obtain ⟨hne, hcl⟩ := hinv.ringsClosed r hr
    exact ⟨⟨hne, hcl⟩, smooth_closed r opts.smoothKernelWidth hne hcl c⟩

/-- Concrete small-numeral points are well-formed. -/
theorem goodPt_small (a b : ℕ) (ha : a < 65536) (hb : b < 65536) :
    GoodPt ((a : ℚ), (b : ℚ)) :=
  ⟨⟨a, ha, rfl⟩, ⟨b, hb, rfl⟩⟩


/-- The overwrite-freedom condition of one stitching step: no `Map.set`
performed by the step may displace an entry belonging to a different
fragment.  Closing a ring is always safe; a join is safe when the merged
fragment re-keys entries that are already present (its own); an extension is
safe when the moved key is fresh on its side; a new fragment is safe when
both its keys are fresh. -/
def stepSafe (st : StitchState) (seg : Pt × Pt) : Bool :=
  match omapGet st.fend (key seg.1), omapGet st.fstart (key seg.2) with
  | some a, some b =>
    if a = b then true
    else
      (omapGet (omapDel st.fstart (key seg.2))
          (key ((st.frags.getD a [] ++ st.frags.getD b []).headD pt0))).isSome &&
        (omapGet (omapDel st.fend (key seg.1))
          (key ((st.frags.getD a [] ++ st.frags.getD b []).getLastD pt0))).isSome
  | some _, none => (omapGet (omapDel st.fend (key seg.1)) (key seg.2)).isNone
  | none, some _ => (omapGet (omapDel st.fstart (key seg.2)) (key seg.1)).isNone
  | none, none =>
    (omapGet st.fstart (key seg.1)).isNone && (omapGet st.fend (key seg.2)).isNone

/-- The state after stitching the first `n` segments of a list. -/
def stitchRun (segs : List (Pt × Pt)) (n : Nat) : StitchState :=
  (segs.take n).foldl stitchStep stitchInit

/-- Lookup skips a leading entry with a different key. -/
theorem omapGet_cons_ne (e : ℚ × Nat) (m : OMap) (k : ℚ) (h : ¬ e.1 = k) :
    omapGet (e :: m) k = omapGet m k := by
  unfold omapGet
  rw [List.find?_cons_of_neg]
  simpa using h

/-- A lookup succeeds exactly when some entry carries the key. -/
theorem omapGet_isSome_any (m : OMap) (k : ℚ) :
    (omapGet m k).isSome = m.any (fun e => decide (e.1 = k)) := by
  induction m with
  | nil => rfl
  | cons e rest ih =>
    by_cases hek : e.1 = k
    · unfold omapGet
      rw [List.find?_cons_of_pos _ (by simpa using hek)]
      simp [hek]
    · rw [omapGet_cons_ne e rest k hek, List.any_cons, ih]
      simp [hek]

/-- Deleting an absent key leaves the map unchanged. -/
theorem omapDel_eq_self (m : OMap) (k : ℚ) (h : ∀ kv ∈ m, kv.1 ≠ k) :
    omapDel m k = m := by
  unfold omapDel
  rw [List.filter_eq_self]
  intro kv hkv
  simpa using h kv hkv

/-- With duplicate-free keys, deleting a present key removes exactly one
entry. -/
theorem omapDel_length (m : OMap) (k : ℚ) (hn : (omapKeys m).Nodup)
    (hget : (omapGet m k).isSome = true) : (omapDel m k).length + 1 = m.length := by
  induction m with
  | nil => simp [omapGet] at hget
  | cons e rest ih =>
    by_cases hek : e.1 = k
    · have hkeys : ∀ kv ∈ rest, kv.1 ≠ k := by
        intro kv hkv hk
        have hnd : ¬ e.1 ∈ List.map (fun x => x.1) rest := by
          have h2 := hn
          unfold omapKeys at h2
          rw [List.map_cons, List.nodup_cons] at h2
          exact h2.1
        exact hnd (List.mem_map.mpr ⟨kv, hkv, by show kv.1 = e.1; rw [hk, hek]⟩)
      have hres := omapDel_eq_self rest k hkeys
      unfold omapDel at hres ⊢
      rw [List.filter_cons_of_neg (by simp [hek]), hres]
      simp
    · have hget' : (omapGet rest k).isSome = true := by
        rw [← omapGet_cons_ne e rest k hek]
        exact hget
      have hn' : (omapKeys rest).Nodup := by
        have h2 := hn
        unfold omapKeys at h2 ⊢
        rw [List.map_cons, List.nodup_cons] at h2
        exact h2.2
      have hrec := ih hn' hget'
      unfold omapDel at hrec ⊢
      rw [List.filter_cons_of_pos (by simp [hek]), List.length_cons, List.length_cons]
      omega

/-- Setting a present key overwrites in place, keeping the size. -/
theorem omapSet_length_present (m : OMap) (k : ℚ) (v : Nat)
    (hget : (omapGet m k).isSome = true) : (omapSet m k v).length = m.length := by
  unfold omapSet
  rw [if_pos]
  · exact List.length_map _ _
  · rw [omapGet_isSome_any] at hget
    exact hget

/-- Setting an absent key appends, growing the size by one. -/
theorem omapSet_length_absent (m : OMap) (k : ℚ) (v : Nat)
    (hget : omapGet m k = none) : (omapSet m k v).length = m.length + 1 := by
  have hany : (m.any fun e => decide (e.1 = k)) = false := by
    have h := omapGet_isSome_any m k
    rw [hget] at h
    exact h.symm
  unfold omapSet
  rw [if_neg]
  · simp
  · rw [hany]
    simp

/-- Deletion preserves duplicate-freedom of the key list. -/
theorem omapKeys_del_nodup (m : OMap) (k : ℚ) (hn : (omapKeys m).Nodup) :
    (omapKeys (omapDel m k)).Nodup := by
  unfold omapKeys omapDel
  exact List.Nodup.sublist (List.Sublist.map _ (List.filter_sublist m)) hn

/-- Setting a present key leaves the key list unchanged. -/
theorem omapKeys_set_present (m : OMap) (k : ℚ) (v : Nat)
    (hget : (omapGet m k).isSome = true) : omapKeys (omapSet m k v) = omapKeys m := by
  unfold omapSet
  rw [if_pos]
  · unfold omapKeys
    rw [List.map_map]
    refine List.map_congr_left ?_
    intro e he
    by_cases hek : e.1 = k
    · simp [Function.comp, hek]
    · simp [Function.comp, hek]
  · rw [omapGet_isSome_any] at hget
    exact hget

/-- Setting an absent key keeps the key list duplicate-free. -/
theorem omapKeys_set_absent_nodup (m : OMap) (k : ℚ) (v : Nat)
    (hget : omapGet m k = none) (hn : (omapKeys m).Nodup) :
    (omapKeys (omapSet m k v)).Nodup := by
  have hany : (m.any fun e => decide (e.1 = k)) = false := by
    have h := omapGet_isSome_any m k
    rw [hget] at h
    exact h.symm
  unfold omapSet
  rw [if_neg]
  · unfold omapKeys at hn ⊢
    rw [List.map_append]
    simp only [List.map_cons, List.map_nil]
    rw [List.nodup_append]
    refine ⟨hn, List.nodup_singleton _, ?_⟩
    intro a ha hmem
    rw [List.mem_singleton] at hmem
    obtain ⟨kv, hkv, hkva⟩ := List.mem_map.mp ha
    exact omapGet_none m k hget kv hkv (hkva.trans hmem)
  · rw [hany]
    simp

/-- Preservation of the map bookkeeping through one safe stitching step:
key lists of both maps stay duplicate-free and their sizes stay equal. -/
theorem kInv_step (st : StitchState) (seg : Pt × Pt)
    (hns : (omapKeys st.fstart).Nodup) (hne : (omapKeys st.fend).Nodup)
    (hlen : st.fstart.length = st.fend.length)
    (hsafe : stepSafe st seg = true) :
    (omapKeys (stitchStep st seg).fstart).Nodup ∧
      (omapKeys (stitchStep st seg).fend).Nodup ∧
      (stitchStep st seg).fstart.length = (stitchStep st seg).fend.length := by
  obtain ⟨s, e⟩ := seg
  unfold stepSafe at hsafe
  unfold stitchStep
  dsimp only at hsafe ⊢
  cases hga : omapGet st.fend (key s) with
  | some a =>
    rw [hga] at hsafe
    have hga' : (omapGet st.fend (key s)).isSome = true := by rw [hga]; rfl
    cases hgb : omapGet st.fstart (key e) with
    | some b =>
      rw [hgb] at hsafe
      have hgb' : (omapGet st.fstart (key e)).isSome = true := by rw [hgb]; rfl
      dsimp only at hsafe ⊢
      by_cases hab : a = b
      · rw [if_pos hab]
        dsimp only
        refine ⟨omapKeys_del_nodup _ _ hns, omapKeys_del_nodup _ _ hne, ?_⟩
        have l1 := omapDel_length st.fstart (key e) hns hgb'
        have l2 := omapDel_length st.fend (key s) hne hga'
        omega
      · rw [if_neg hab] at hsafe ⊢
        dsimp only at hsafe ⊢
        rw [Bool.and_eq_true] at hsafe
        obtain ⟨hs1, hs2⟩ := hsafe
        refine ⟨?_, ?_, ?_⟩
        · rw [omapKeys_set_present _ _ _ hs1]
          exact omapKeys_del_nodup _ _ hns
        · rw [omapKeys_set_present _ _ _ hs2]
          exact omapKeys_del_nodup _ _ hne
        · rw [omapSet_length_present _ _ _ hs1, omapSet_length_present _ _ _ hs2]
          have l1 := omapDel_length st.fstart (key e) hns hgb'
          have l2 := omapDel_length st.fend (key s) hne hga'
          omega
    | none =>
      rw [hgb] at hsafe
      dsimp only at hsafe ⊢
      rw [Option.isNone_iff_eq_none] at hsafe
      refine ⟨hns, ?_, ?_⟩
      · exact omapKeys_set_absent_nodup _ _ _ hsafe (omapKeys_del_nodup _ _ hne)
      · rw [omapSet_length_absent _ _ _ hsafe]
        have l2 := omapDel_length st.fend (key s) hne hga'
        omega
  | none =>
    rw [hga] at hsafe
    cases hgb : omapGet st.fstart (key e) with
    | some b =>
      rw [hgb] at hsafe
      have hgb' : (omapGet st.fstart (key e)).isSome = true := by rw [hgb]; rfl
      dsimp only at hsafe ⊢
      rw [Option.isNone_iff_eq_none] at hsafe
      refine ⟨?_, hne, ?_⟩
      · exact omapKeys_set_absent_nodup _ _ _ hsafe (omapKeys_del_nodup _ _ hns)
      · rw [omapSet_length_absent _ _ _ hsafe]
        have l1 := omapDel_length st.fstart (key e) hns hgb'
        omega
    | none =>
      rw [hgb] at hsafe
      dsimp only at hsafe ⊢
      rw [Bool.and_eq_true, Option.isNone_iff_eq_none, Option.isNone_iff_eq_none] at hsafe
      obtain ⟨h1, h2⟩ := hsafe
      refine ⟨?_, ?_, ?_⟩
      · exact omapKeys_set_absent_nodup _ _ _ h1 hns
      · exact omapKeys_set_absent_nodup _ _ _ h2 hne
      · rw [omapSet_length_absent _ _ _ h1, omapSet_length_absent _ _ _ h2]
        omega

/-- Stepping the prefix fold: stitching `n + 1` segments is one
`stitchStep` past stitching `n` of them, while the prefix is proper. -/
theorem stitchRun_step (segs : List (Pt × Pt)) (n : Nat) (h : n < segs.length) :
    stitchRun segs (n + 1) = stitchStep (stitchRun segs n) (segs.getD n (pt0, pt0)) := by
  unfold stitchRun
  rw [List.take_succ, List.foldl_append, List.getD_eq_getElem?_getD,
    List.getElem?_eq_getElem h]
  rfl

/-- Past the end of the segment list the prefix fold is stationary. -/
theorem stitchRun_stable (segs : List (Pt × Pt)) (n : Nat) (h : segs.length ≤ n) :
    stitchRun segs (n + 1) = stitchRun segs n := by
  unfold stitchRun
  rw [List.take_of_length_le h, List.take_of_length_le (by omega)]

/-- After any overwrite-free prefix the two fragment maps have
duplicate-free key lists and equal sizes. -/
theorem stitchRun_inv (segs : List (Pt × Pt)) (n : Nat)
    (hsafe : ∀ i, i < n → i < segs.length →
      stepSafe (stitchRun segs i) (segs.getD i (pt0, pt0)) = true) :
    (omapKeys (stitchRun segs n).fstart).Nodup ∧
      (omapKeys (stitchRun segs n).fend).Nodup ∧
      (stitchRun segs n).fstart.length = (stitchRun segs n).fend.length := by
  induction n with
  | zero => exact ⟨List.nodup_nil, List.nodup_nil, rfl⟩
  | succ n ih =>
    have ihh := ih (fun i hi hil => hsafe i (by omega) hil)
    by_cases hn : n < segs.length
    · rw [stitchRun_step segs n hn]
      exact kInv_step _ _ ihh.1 ihh.2.1 ihh.2.2 (hsafe n (by omega) hn)
    · rw [stitchRun_stable segs n (by omega)]
      exact ihh

/-- C2 (amended): during stitching in `contour()`, the start-keyed and
end-keyed fragment maps have equal size after every prefix of the sorted
segment list along which no `Map.set` overwrites an entry of a different
fragment (each open fragment then contributes exactly one start key and one
end key).  Without that proviso the claim is false: a key collision lets a
`set` silently replace a foreign entry and the sizes diverge (see the
counterexample). -/
theorem contour_stitch_sizes (m : ContourMipmap) (t : ℚ) (opts : COpts) (n : Nat)
    (hsafe : ∀ i, i < n → i < ((m.contourSegs t opts).getD []).length →
      stepSafe (stitchRun ((m.contourSegs t opts).getD []) i)
        (((m.contourSegs t opts).getD []).getD i (pt0, pt0)) = true) :
    (stitchRun ((m.contourSegs t opts).getD []) n).fstart.length =
      (stitchRun ((m.contourSegs t opts).getD []) n).fend.length :=
  (stitchRun_inv ((m.contourSegs t opts).getD []) n hsafe).2.2

section

attribute [local semireducible] Rat.add Rat.mul Rat.sub Rat.inv

/-- Witness for C5: the four segments of the 3x3 peak raster at threshold 1
stitch into the single closed diamond ring, and it stays closed and nonempty
through the two default smoothing cycles. -/
theorem contour_rings_closed_witness :
    (([((2 : ℚ), (1 : ℚ)), (1, 1), (1, 2), (2, 2), (2, 1)] : List Pt) ≠ [] ∧
        ([((2 : ℚ), (1 : ℚ)), (1, 1), (1, 2), (2, 2), (2, 1)] : List Pt).headD pt0 =
          ([((2 : ℚ), (1 : ℚ)), (1, 1), (1, 2), (2, 2), (2, 1)] : List Pt).getLastD pt0) ∧
      smooth ([((2 : ℚ), (1 : ℚ)), (1, 1), (1, 2), (2, 2), (2, 1)] : List Pt) 2 2 ≠ [] ∧
      (smooth ([((2 : ℚ), (1 : ℚ)), (1, 1), (1, 2), (2, 2), (2, 1)] : List Pt) 2 2).headD pt0 =
        (smooth ([((2 : ℚ), (1 : ℚ)), (1, 1), (1, 2), (2, 2), (2, 1)] : List Pt) 2 2).getLastD pt0 := by
  have hgood : ∀ sg ∈ (peakMap.contourSegs 1 {}).getD [], GoodPt sg.1 ∧ GoodPt sg.2 := by
    intro sg hsg
    have hlist : (peakMap.contourSegs 1 {}).getD [] =
        ([(((1 : ℚ), (1 : ℚ)), ((1 : ℚ), (2 : ℚ))), (((2 : ℚ), (1 : ℚ)), ((1 : ℚ), (1 : ℚ))),
          (((1 : ℚ), (2 : ℚ)), ((2 : ℚ), (2 : ℚ))), (((2 : ℚ), (2 : ℚ)), ((2 : ℚ), (1 : ℚ)))] :
          List (Pt × Pt)) := by decide
    rw [hlist] at hsg
    have h1 : GoodPt ((1 : ℚ), (1 : ℚ)) := by
      simpa using goodPt_small 1 1 (by norm_num) (by norm_num)
    have h2 : GoodPt ((1 : ℚ), (2 : ℚ)) := by
      simpa using goodPt_small 1 2 (by norm_num) (by norm_num)
    have h3 : GoodPt ((2 : ℚ), (1 : ℚ)) := by
      simpa using goodPt_small 2 1 (by norm_num) (by norm_num)
    have h4 : GoodPt ((2 : ℚ), (2 : ℚ)) := by
      simpa using goodPt_small 2 2 (by norm_num) (by norm_num)
    simp only [List.mem_cons, List.not_mem_nil, or_false] at hsg
    rcases hsg with rfl | rfl | rfl | rfl
    · exact ⟨h1, h2⟩
    · exact ⟨h3, h1⟩
    · exact ⟨h2, h4⟩
    · exact ⟨h4, h3⟩
  exact contour_rings_closed peakMap 1 {} hgood
    ([((2 : ℚ), (1 : ℚ)), (1, 1), (1, 2), (2, 2), (2, 1)] : List Pt) (by decide) 2

/-- C2 counterexample: on the 3x3 raster `mismMap` (`[0,0,0, 0,2,0, 0,NaN,2]`)
at threshold 1 with default options, after the first 4 of the 6 sorted
segments the start-keyed map holds 1 entry but the end-keyed map holds 2:
a cross-level key collision against the NaN region makes a `Map.set`
overwrite a foreign entry, so the size invariant fails on an actual
`contour()` run (the original code only logs this mismatch). -/
theorem stitch_size_mismatch :
    (stitchRun ((mismMap.contourSegs 1 {}).getD []) 4).fstart.length = 1 ∧
      (stitchRun ((mismMap.contourSegs 1 {}).getD []) 4).fend.length = 2 := by
  constructor
  · decide
  · decide

/-- Witness for `contour_stitch_sizes`: on the 3x3 peak raster every step of
the full run is overwrite-free, and the two maps indeed end up equally
sized. -/
theorem contour_stitch_sizes_witness :
    (stitchRun ((peakMap.contourSegs 1 {}).getD []) 4).fstart.length =
      (stitchRun ((peakMap.contourSegs 1 {}).getD []) 4).fend.length := by
  refine contour_stitch_sizes peakMap 1 {} 4 ?_
  decide

end
